import Mathlib

/-!
Smash Hit APK checksum (`internals/smashhit_checksum_apk.c`).

A shallow embedding of the checksum tool: the `fread`/`fseek` cursor over the
bytes of the opened file, the C-string suffix test, the byte-folding
accumulator and the loop of `main` over ZIP local file headers.

Bytes are natural numbers below 256; the unsigned 8-bit addition of the
accumulator is written with an explicit `% 256`.  The host is little-endian
and `long` is 64 bits wide, as on the platforms the tool is built for, and
`malloc` succeeds.
-/

namespace SmashHit

/-! ## The stream -/

/-- The opened `FILE *`: the content of the file and the position indicator.
`fseek` may move the position past the end of the content. -/
structure FILE where
  bytes : List Nat
  pos : Nat
deriving DecidableEq

/-- The call `fread(buf, 1, n, file)`: the bytes actually read (at most `n`, fewer at
the end of the file) and the stream advanced by that many bytes. -/
def fread (file : FILE) (n : Nat) : List Nat × FILE :=
  let got := (file.bytes.drop file.pos).take n
  (got, { file with pos := file.pos + got.length })

/-- The value of an integer object whose low bytes are the given ones and whose
other bytes are zero (little-endian host). -/
def le_value : List Nat → Nat
  | [] => 0
  | b :: bs => b + 256 * le_value bs

/-- Function `file_read_uint16`: `temp = 0; fread(&temp, sizeof temp, 1, file); return temp;`.
The result of `fread` is not looked at: on a short read the bytes that were not
read stay zero. -/
def file_read_uint16 (file : FILE) : Nat × FILE :=
  let r := fread file 2
  (le_value r.1, r.2)

/-- Function `file_read_uint32`: as `file_read_uint16`, for four bytes. -/
def file_read_uint32 (file : FILE) : Nat × FILE :=
  let r := fread file 4
  (le_value r.1, r.2)

/-- Function `file_read_block`: `none` (the `NULL` return) when fewer than `size` bytes
could be read, otherwise the block followed by the null byte stored at
`data[size]`. -/
def file_read_block (file : FILE) (size : Nat) : Option (List Nat) × FILE :=
  let r := fread file size
  if r.1.length ≠ size then (none, r.2) else (some (r.1 ++ [0]), r.2)

/-- Function `file_skip`: `fseek(file, size, SEEK_CUR)`. -/
def file_skip (file : FILE) (size : Nat) : FILE :=
  { file with pos := file.pos + size }

/-! ## C strings -/

/-- Library function `strlen`: the number of bytes before the first null byte. -/
def strlen (s : List Nat) : Nat :=
  (s.takeWhile (fun c => c != 0)).length

/-- Library function `strcmp`: zero when the two strings agree up to and including their
terminators, otherwise the difference of the first two bytes that differ.  A
buffer that ends without a terminator reads as terminated there. -/
def strcmp : List Nat → List Nat → Int
  | [], b => 0 - (b.headD 0 : Int)
  | a :: as, b =>
    if a ≠ b.headD 0 then (a : Int) - (b.headD 0 : Int)
    else if a = 0 then 0
    else strcmp as b.tail

/-- Function `str_ends_with`, lines 18–30: whether the C string `end_` is a suffix
of the C string `string`. -/
def str_ends_with (string : List Nat) (end_ : List Nat) : Bool :=
  let string_size := strlen string
  let end_size := strlen end_
  if end_size > string_size then false
  else strcmp (string.drop (string_size - end_size)) end_ == 0

/-- The string literal `".so"` with its terminator. -/
def lit_so : List Nat := [0x2e, 0x73, 0x6f, 0]

/-- The string literal `"classes.dex"` with its terminator. -/
def lit_classes_dex : List Nat :=
  [0x63, 0x6c, 0x61, 0x73, 0x73, 0x65, 0x73, 0x2e, 0x64, 0x65, 0x78, 0]

/-! ## The accumulator -/

/-- The global `gKey`: the string literal `"c+r3k7:1"` with its terminator. -/
def gKey : List Nat := [0x63, 0x2b, 0x72, 0x33, 0x6b, 0x37, 0x3a, 0x31, 0]

/-- One pass of the loop body of `checksum_content`:
`checksum[i % 256] += gKey[i % 8] ^ data[i]` in unsigned 8-bit arithmetic. -/
def checksum_step (data : List Nat) (checksum : List Nat) (i : Nat) : List Nat :=
  checksum.set (i % 256)
    ((checksum.getD (i % 256) 0 + (gKey.getD (i % 8) 0 ^^^ data.getD i 0)) % 256)

/-- Function `checksum_content`: `for (size_t i = 0; i < size; i++)` over `checksum_step`. -/
def checksum_content (checksum : List Nat) (size : Nat) (data : List Nat) : List Nat :=
  (List.range size).foldl (checksum_step data) checksum

/-! ## `main` -/

/-- The array `checksum[256] = { 0 }` at the start of the run. -/
def checksum_init : List Nat := List.replicate 256 0

/-- The local file header signature tested at line 105. -/
def zip_magic : Nat := 0x04034b50

/-- The locals set by lines 113–128, and the stream after them. -/
structure Header where
  flags : Nat
  data_size : Nat
  name_size : Nat
  extra_size : Nat
  file : FILE
deriving DecidableEq

/-- Lines 113–128 of `main`: the header fields that follow the signature, with
the name length limited to 511. -/
def main_read_header (file : FILE) : Header :=
  let version := file_read_uint16 file
  let flags := file_read_uint16 version.2
  let file := file_skip flags.2 10
  let data_size := file_read_uint32 file
  let uncompressed := file_read_uint32 data_size.2
  let name_size := file_read_uint16 uncompressed.2
  let extra_size := file_read_uint16 name_size.2
  { flags := flags.1
    data_size := data_size.1
    name_size := if name_size.1 > 511 then 511 else name_size.1
    extra_size := extra_size.1
    file := extra_size.2 }

/-- What one pass of the `while (true)` body does to the control flow. -/
inductive Iter where
  /-- The `break` of line 107. -/
  | brk : Iter
  /-- A `return` from inside the loop, with the status and the text printed
  just before it. -/
  | ret : Nat → List Char → Iter
  /-- The end of the body is reached with this stream and this array. -/
  | next : FILE → List Nat → Iter
deriving DecidableEq

/-- The message of line 150. -/
def msg_data_failed : List Char :=
  "Failed to read block of file data from zip structure.\n".toList

/-- The condition of line 146 on the name buffer. -/
def is_relevant (name : List Nat) : Bool :=
  str_ends_with name lit_so || str_ends_with name lit_classes_dex

/-- Lines 145–169 of `main`: fold or skip the data of the entry, then skip the
16 bytes of a data descriptor when bit 3 of the flags is set. -/
def main_consume (flags data_size : Nat) (name : List Nat) (file : FILE)
    (checksum : List Nat) : Iter :=
  if is_relevant name then
    match file_read_block file data_size with
    | (none, _) => Iter.ret 1 msg_data_failed
    | (some data, file) =>
      let checksum := checksum_content checksum data_size data
      Iter.next (if flags &&& (1 <<< 3) ≠ 0 then file_skip file 16 else file) checksum
  else
    let file := file_skip file data_size
    Iter.next (if flags &&& (1 <<< 3) ≠ 0 then file_skip file 16 else file) checksum

/-- Lines 132–169 of `main`, after the header fields are read: read the name,
skip the extra field, then fold or skip the data.  In the default build
`DPRINTF` is `nopFunction`, so line 136 prints nothing. -/
def main_entry (h : Header) (checksum : List Nat) : Iter :=
  match file_read_block h.file h.name_size with
  | (none, _) => Iter.ret 1 []
  | (some name, file) =>
    main_consume h.flags h.data_size name (file_skip file h.extra_size) checksum

/-- The body of the `while (true)` loop, lines 102–169. -/
def loop_body (file : FILE) (checksum : List Nat) : Iter :=
  let magic := file_read_uint32 file
  if magic.1 ≠ zip_magic then Iter.brk
  else main_entry (main_read_header magic.2) checksum

/-- How the loop ends. -/
inductive Walk where
  /-- The loop was left by `break`; the array holds the final state. -/
  | done : List Nat → Walk
  /-- Function `main` returned from inside the loop with this status, having printed
  this text. -/
  | failed : Nat → List Char → Walk
deriving DecidableEq

/-- The `while (true)` loop, run for at most `fuel` passes. -/
def main_loop : Nat → FILE → List Nat → Option Walk
  | 0, _, _ => none
  | fuel + 1, file, checksum =>
    match loop_body file checksum with
    | Iter.brk => some (Walk.done checksum)
    | Iter.ret status out => some (Walk.failed status out)
    | Iter.next file checksum => main_loop fuel file checksum

/-- The stream and the array after `k` complete passes of the loop body, when
none of them left the loop. -/
def main_iterate : Nat → FILE → List Nat → Option (FILE × List Nat)
  | 0, file, checksum => some (file, checksum)
  | k + 1, file, checksum =>
    match loop_body file checksum with
    | Iter.next file checksum => main_iterate k file checksum
    | _ => none

/-- The call `printf("%02x ", a)`: lowercase hexadecimal, zero-padded to two digits,
and a space. -/
def printf_02x (a : Nat) : List Char :=
  let digits := Nat.toDigits 16 a
  List.replicate (2 - digits.length) '0' ++ digits ++ [' ']

/-- Lines 173–183 of `main`: the text printed for the final array. -/
def print_checksum (checksum : List Nat) : List Char :=
  (List.range 256).foldl
    (fun out i =>
      out ++ printf_02x (checksum.getD i 0) ++ (if i % 16 = 15 then ['\n'] else []))
    [] ++ ['\n']

/-- The loop of `main` on a file with the given content, from offset 0 and the
zeroed array.  Every pass that does not leave the loop moves the stream
forward inside the content, so `bytes.length + 1` passes are enough. -/
def walk (bytes : List Nat) : Option Walk :=
  main_loop (bytes.length + 1) ⟨bytes, 0⟩ checksum_init

/-- The run of `main` with `argc == 2` on an opened file with the given content:
the exit status and the text written to standard output. -/
def main (bytes : List Nat) : Option (Nat × List Char) :=
  match walk bytes with
  | none => none
  | some (Walk.done checksum) => some (0, print_checksum checksum)
  | some (Walk.failed status out) => some (status, out)

/-! ## Specification-side definitions -/

/-- The sum of the bytes `gKey[i % 8] ^ data[i]` added at index `j` by a call
with `size = n`. -/
def contribution (data : List Nat) (n j : Nat) : Nat :=
  ∑ i in (Finset.range n).filter (fun i => i % 256 = j),
    (gKey.getD (i % 8) 0 ^^^ data.getD i 0)

/-- A state of byte values. -/
def is_bytes (l : List Nat) : Prop := ∀ x ∈ l, x < 256

instance (l : List Nat) : Decidable (is_bytes l) := by
  unfold is_bytes; infer_instance

/-- The bytes of a buffer before its first null byte: the C string it holds. -/
def c_string (name : List Nat) : List Nat := name.takeWhile (fun c => c != 0)

/-- The 16-bit little-endian value of the content at an offset; bytes beyond
the end count as zero. -/
def u16_at (bytes : List Nat) (off : Nat) : Nat := le_value ((bytes.drop off).take 2)

/-- The 32-bit little-endian value of the content at an offset; bytes beyond
the end count as zero. -/
def u32_at (bytes : List Nat) (off : Nat) : Nat := le_value ((bytes.drop off).take 4)

/-- Where the stream stands after reads and skips of `o` bytes in total that
began at offset `p`: at `p + o`, or short of it and at or beyond the end when a
read was cut short. -/
def stands (bytes : List Nat) (p o q : Nat) : Prop :=
  q ≤ p + o ∧ (q = p + o ∨ bytes.length ≤ q)

/-- The number of bytes skipped at lines 164–167. -/
def descriptor_skip (flags : Nat) : Nat := if flags &&& (1 <<< 3) ≠ 0 then 16 else 0

/-- The two bytes of a 16-bit field, low byte first. -/
def le16 (x : Nat) : List Nat := [x % 256, x / 256 % 256]

/-- The four bytes of a 32-bit field, low byte first. -/
def le32 (x : Nat) : List Nat :=
  [x % 256, x / 256 % 256, x / 65536 % 256, x / 16777216 % 256]

/-- An entry of an archive as it is laid out from its local file header on. -/
structure Entry where
  version : Nat
  flags : Nat
  method : Nat
  time : Nat
  date : Nat
  crc32 : Nat
  uncompressed_size : Nat
  name : List Nat
  extra : List Nat
  data : List Nat
  descriptor : List Nat
deriving DecidableEq

/-- The sizes fit their header fields, the name is at most 511 bytes without a
zero byte, and the descriptor, present when flag bit 3 is set, is 16 bytes. -/
def Entry.well_formed (e : Entry) : Prop :=
  e.flags < 2 ^ 16 ∧ e.name.length ≤ 511 ∧ 0 ∉ e.name ∧ e.extra.length < 2 ^ 16 ∧
    e.data.length < 2 ^ 32 ∧ e.descriptor.length = 16

instance (e : Entry) : Decidable e.well_formed := by
  unfold Entry.well_formed; infer_instance

/-- The 30-byte local file header of an entry. -/
def Entry.header (e : Entry) : List Nat :=
  [0x50, 0x4b, 0x03, 0x04] ++ le16 e.version ++ le16 e.flags ++ le16 e.method ++
    le16 e.time ++ le16 e.date ++ le32 e.crc32 ++ le32 e.data.length ++
    le32 e.uncompressed_size ++ le16 e.name.length ++ le16 e.extra.length

/-- The bytes of an entry: header, name, extra field, data and, when flag bit 3
is set, the descriptor. -/
def Entry.encode (e : Entry) : List Nat :=
  e.header ++ e.name ++ e.extra ++ e.data ++ (if e.flags &&& 8 ≠ 0 then e.descriptor else [])

/-- The entries one after the other. -/
def archive (es : List Entry) : List Nat := (es.map Entry.encode).flatten

/-- The name ends in `.so` or in `classes.dex`, as bytes. -/
def Entry.qualifies (e : Entry) : Prop :=
  [0x2e, 0x73, 0x6f] <:+ e.name ∨
    [0x63, 0x6c, 0x61, 0x73, 0x73, 0x65, 0x73, 0x2e, 0x64, 0x65, 0x78] <:+ e.name

instance (e : Entry) : Decidable e.qualifies := by
  unfold Entry.qualifies; infer_instance

/-- The state after `checksum_content` is applied in turn to the data of the
qualifying entries. -/
def fold_entries (checksum : List Nat) (es : List Entry) : List Nat :=
  (es.filter (fun e => decide e.qualifies)).foldl
    (fun s e => checksum_content s e.data.length e.data) checksum

/-- The signature bytes `50 4B 03 04` of a local file header. -/
def signature : List Nat := [0x50, 0x4b, 0x03, 0x04]

/-- The data of the qualifying entries, in archive order. -/
def qualifying_data (es : List Entry) : List (List Nat) :=
  (es.filter (fun e => decide e.qualifies)).map Entry.data

/-- All the pieces but the last have a length that is a multiple of 256. -/
def aligned (ds : List (List Nat)) : Prop := ∀ d ∈ ds.dropLast, 256 ∣ d.length

instance (ds : List (List Nat)) : Decidable (aligned ds) := by
  unfold aligned; infer_instance

/-- An entry `a.so` with flag bit 3 set, a two-byte extra field and eight zero
bytes of data. -/
def sample_so : Entry :=
  { version := 20, flags := 8, method := 8, time := 0x6000, date := 0x5821, crc32 := 0xdeadbeef,
    uncompressed_size := 8, name := [0x61, 0x2e, 0x73, 0x6f], extra := [1, 2],
    data := [0, 0, 0, 0, 0, 0, 0, 0], descriptor := List.replicate 16 9 }

/-- An entry `res.txt` with three bytes of data. -/
def sample_txt : Entry :=
  { version := 20, flags := 0, method := 0, time := 0, date := 0, crc32 := 0,
    uncompressed_size := 3, name := [0x72, 0x65, 0x73, 0x2e, 0x74, 0x78, 0x74], extra := [],
    data := [1, 2, 3], descriptor := List.replicate 16 0 }

/-- An entry `classes.dex` with three bytes of data. -/
def sample_dex : Entry :=
  { version := 20, flags := 0, method := 8, time := 0, date := 0, crc32 := 0,
    uncompressed_size := 3,
    name := [0x63, 0x6c, 0x61, 0x73, 0x73, 0x65, 0x73, 0x2e, 0x64, 0x65, 0x78], extra := [],
    data := [1, 2, 3], descriptor := List.replicate 16 0 }

/-- An entry `a.so` whose data is the two bytes `1 2`. -/
def split_whole : Entry :=
  { version := 20, flags := 0, method := 0, time := 0, date := 0, crc32 := 0,
    uncompressed_size := 2, name := [0x61, 0x2e, 0x73, 0x6f], extra := [],
    data := [1, 2], descriptor := List.replicate 16 0 }

/-- An entry `a.so` whose data is the byte `1`. -/
def split_first : Entry := { split_whole with uncompressed_size := 1, data := [1] }

/-- An entry `b.so` whose data is the byte `2`. -/
def split_second : Entry :=
  { split_whole with uncompressed_size := 1, name := [0x62, 0x2e, 0x73, 0x6f], data := [2] }

/-- An entry `a.so` with 256 bytes of data. -/
def block_first : Entry :=
  { split_whole with uncompressed_size := 256, data := List.replicate 256 1 }

/-- An entry `a.so` with 257 bytes of data. -/
def block_whole : Entry :=
  { split_whole with uncompressed_size := 257, data := List.replicate 256 1 ++ [2] }

/-- The content for the witness of C5: `res.txt`, then `a.so` cut off inside
its data. -/
def cut_in_data : List Nat := archive [sample_txt] ++ sample_so.encode.take 41

/-- The content for the witness of C6: `a.so`, then a header cut off seven
bytes in. -/
def cut_in_header : List Nat := archive [sample_so] ++ [0x50, 0x4b, 0x03, 0x04, 1, 2, 3]

/-- The content for the witness of C7: a header that declares a name of 600
bytes and an extra field of 2 bytes, followed by 520 bytes. -/
def long_name : List Nat :=
  [0x50, 0x4b, 0x03, 0x04] ++ le16 20 ++ le16 0 ++ List.replicate 10 0 ++ le32 1 ++ le32 1 ++
    le16 600 ++ le16 2 ++ List.replicate 520 0x61

/-- The eight key bytes `63 2b 72 33 6b 37 3a 31`, the characters of `c+r3k7:1`. -/
def key : List Nat := [0x63, 0x2b, 0x72, 0x33, 0x6b, 0x37, 0x3a, 0x31]

/-- An entry `classes.dex` with eight zero bytes of data. -/
def dex_zero8 : Entry :=
  { version := 20, flags := 0, method := 8, time := 0, date := 0, crc32 := 0,
    uncompressed_size := 8,
    name := [0x63, 0x6c, 0x61, 0x73, 0x73, 0x65, 0x73, 0x2e, 0x64, 0x65, 0x78], extra := [],
    data := [0, 0, 0, 0, 0, 0, 0, 0], descriptor := List.replicate 16 0 }

/-- An entry `lib.so` with 256 zero bytes of data. -/
def so_zero256 : Entry :=
  { version := 20, flags := 8, method := 8, time := 0, date := 0, crc32 := 0,
    uncompressed_size := 256, name := [0x6c, 0x69, 0x62, 0x2e, 0x73, 0x6f], extra := [7],
    data := List.replicate 256 0, descriptor := List.replicate 16 1 }

/-- An entry `b.so` whose data is the bytes `5 6 7`, with other header fields
than `split_whole`. -/
def swap_other : Entry :=
  { version := 10, flags := 0x0808, method := 8, time := 1, date := 2, crc32 := 3,
    uncompressed_size := 77, name := [0x62, 0x2e, 0x73, 0x6f], extra := [4, 4],
    data := [5, 6, 7], descriptor := List.replicate 16 5 }

/-- The entry `res.txt` of another archive: other data, other header fields. -/
def other_txt : Entry :=
  { version := 45, flags := 0, method := 8, time := 0, date := 0, crc32 := 99,
    uncompressed_size := 1000, name := [0x72, 0x65, 0x73, 0x2e, 0x74, 0x78, 0x74],
    extra := [1, 1, 1], data := [9, 9, 9, 9, 9], descriptor := List.replicate 16 0 }

/-- The entry `a.so` of another archive: same name, bit 3 and data, other
header fields, extra field and descriptor. -/
def other_so : Entry :=
  { version := 45, flags := 0x0809, method := 8, time := 5, date := 0x5821, crc32 := 0xdeadbeef,
    uncompressed_size := 0, name := [0x61, 0x2e, 0x73, 0x6f], extra := [],
    data := [0, 0, 0, 0, 0, 0, 0, 0], descriptor := List.replicate 16 0xff }

/-- The entry `res.txt` with a header that declares 1000 bytes of data. -/
def oversized_txt : Entry :=
  { version := 20, flags := 0, method := 0, time := 0, date := 0, crc32 := 0,
    uncompressed_size := 1000, name := [0x72, 0x65, 0x73, 0x2e, 0x74, 0x78, 0x74], extra := [],
    data := List.replicate 1000 0, descriptor := List.replicate 16 0 }

/-- A content whose only entry, `res.txt`, declares 1000 bytes of data and
holds three. -/
def oversized_skip : List Nat := oversized_txt.header ++ oversized_txt.name ++ [1, 2, 3]

/-- A content whose last header is cut off right after the signature: `a.so`,
then the four signature bytes. -/
def cut_after_signature : List Nat := archive [sample_so] ++ [0x50, 0x4b, 0x03, 0x04]

/-- A content cut off inside the name of its only entry: the header of `a.so`,
which declares a name of four bytes, and two bytes. -/
def cut_in_name : List Nat := sample_so.encode.take 32

/-- The lowercase hexadecimal digit of a value below 16. -/
def hex_digit (d : Nat) : Char := if d < 10 then Char.ofNat (48 + d) else Char.ofNat (87 + d)

/-- The two lowercase hexadecimal digits of a byte, high digit first. -/
def hex_group (a : Nat) : List Char := [hex_digit (a / 16), hex_digit (a % 16)]

/-- The layout in which the 16 groups of a line are separated by single spaces
and the line is ended by a newline, with one more newline after the last
line. -/
def layout_separated (checksum : List Nat) : List Char :=
  ((List.range 16).map (fun r =>
    List.intercalate [' '] ((List.range 16).map (fun c => hex_group (checksum.getD (16 * r + c) 0)))
      ++ ['\n'])).flatten ++ ['\n']

/-- The layout in which every one of the 16 groups of a line is followed by a
single space and the line is ended by a newline, with one more newline after
the last line. -/
def layout_followed (checksum : List Nat) : List Char :=
  ((List.range 16).map (fun r =>
    ((List.range 16).map (fun c => hex_group (checksum.getD (16 * r + c) 0) ++ [' '])).flatten
      ++ ['\n'])).flatten ++ ['\n']

/-- The bytes end in `.so` or in `classes.dex`. -/
def ends_so_or_dex (name : List Nat) : Prop :=
  [0x2e, 0x73, 0x6f] <:+ name ∨
    [0x63, 0x6c, 0x61, 0x73, 0x73, 0x65, 0x73, 0x2e, 0x64, 0x65, 0x78] <:+ name

instance (name : List Nat) : Decidable (ends_so_or_dex name) := by
  unfold ends_so_or_dex; infer_instance

/-- The name bytes of the header at offset `p`: the `min(name length, 511)` bytes
after the 30 bytes of the header. -/
def name_block (bytes : List Nat) (p : Nat) : List Nat :=
  (bytes.drop (p + 30)).take (min (u16_at bytes (p + 26)) 511)

/-- At the header at offset `p` the name block is short, or the bytes of the name
before its first zero byte end in `.so` or `classes.dex` and the data block is
short. -/
def short_read (bytes : List Nat) (p : Nat) : Prop :=
  bytes.length - (p + 30) < min (u16_at bytes (p + 26)) 511 ∨
    (ends_so_or_dex (c_string (name_block bytes p)) ∧
      bytes.length - (p + 30 + min (u16_at bytes (p + 26)) 511 + u16_at bytes (p + 28)) <
        u32_at bytes (p + 18))

instance (bytes : List Nat) (p : Nat) : Decidable (short_read bytes p) := by
  unfold short_read; infer_instance

/-- The condition in the words of the specification: at the header at offset `p`
the name block is short, or the whole name ends in `.so` or `classes.dex` (a
qualifying entry) and the data block is short. -/
def short_read_as_specified (bytes : List Nat) (p : Nat) : Prop :=
  bytes.length - (p + 30) < min (u16_at bytes (p + 26)) 511 ∨
    (ends_so_or_dex (name_block bytes p) ∧
      bytes.length - (p + 30 + min (u16_at bytes (p + 26)) 511 + u16_at bytes (p + 28)) <
        u32_at bytes (p + 18))

instance (bytes : List Nat) (p : Nat) : Decidable (short_read_as_specified bytes p) := by
  unfold short_read_as_specified; infer_instance

/-- An entry whose five name bytes are `a`, a zero byte and `.so`, with eight
bytes of data. -/
def nul_before_suffix : Entry :=
  { version := 20, flags := 0, method := 0, time := 0, date := 0, crc32 := 0,
    uncompressed_size := 8, name := [0x61, 0, 0x2e, 0x73, 0x6f], extra := [],
    data := [1, 2, 3, 4, 5, 6, 7, 8], descriptor := List.replicate 16 0 }

/-- The entry `nul_before_suffix` cut off after three of its eight data bytes. -/
def cut_nul_before_suffix : List Nat := nul_before_suffix.encode.take 38

/-- An entry whose six name bytes are `a.so`, a zero byte and `b`, with eight
bytes of data. -/
def nul_after_suffix : Entry :=
  { version := 20, flags := 0, method := 0, time := 0, date := 0, crc32 := 0,
    uncompressed_size := 8, name := [0x61, 0x2e, 0x73, 0x6f, 0, 0x62], extra := [],
    data := [1, 2, 3, 4, 5, 6, 7, 8], descriptor := List.replicate 16 0 }

/-- The entry `nul_after_suffix` cut off after three of its eight data bytes. -/
def cut_nul_after_suffix : List Nat := nul_after_suffix.encode.take 39

/-! # Theorems -/

set_option maxRecDepth 100000

/-! ## The accumulator: lemmas -/

theorem getD_set_eq (l : List Nat) (i j v : Nat) :
    (l.set i v).getD j 0 = if i = j ∧ i < l.length then v else l.getD j 0 := by
  simp only [List.getD_eq_getElem?_getD, List.getElem?_set]
  by_cases h : i = j
  · subst h
    by_cases h2 : i < l.length
    · simp [h2]
    · simp [h2, List.getElem?_eq_none (Nat.le_of_not_lt h2)]
  · simp [h]

theorem checksum_content_succ (cs : List Nat) (n : Nat) (data : List Nat) :
    checksum_content cs (n + 1) data = checksum_step data (checksum_content cs n data) n := by
  simp [checksum_content, List.range_succ, List.foldl_append]

theorem checksum_step_length (data cs : List Nat) (i : Nat) :
    (checksum_step data cs i).length = cs.length := by
  simp [checksum_step]

theorem checksum_content_length (cs : List Nat) (n : Nat) (data : List Nat) :
    (checksum_content cs n data).length = cs.length := by
  induction n with
  | zero => simp [checksum_content]
  | succ n ih => rw [checksum_content_succ, checksum_step_length, ih]

theorem contribution_succ (data : List Nat) (n j : Nat) :
    contribution data (n + 1) j =
      contribution data n j +
        (if n % 256 = j then gKey.getD (n % 8) 0 ^^^ data.getD n 0 else 0) := by
  unfold contribution
  rw [Finset.range_succ, Finset.filter_insert]
  by_cases h : n % 256 = j
  · simp only [h, if_true]
    rw [Finset.sum_insert (by simp), Nat.add_comm]
  · simp [h]

theorem getD_lt_of_is_bytes {l : List Nat} (h : is_bytes l) (j : Nat) : l.getD j 0 < 256 := by
  rw [List.getD_eq_getElem?_getD]
  by_cases hj : j < l.length
  · rw [List.getElem?_eq_getElem hj]
    exact h _ (List.getElem_mem _)
  · rw [List.getElem?_eq_none (Nat.le_of_not_lt hj)]
    simp

theorem checksum_content_getD (cs : List Nat) (hlen : cs.length = 256) (hb : is_bytes cs)
    (n : Nat) (data : List Nat) (j : Nat) (hj : j < 256) :
    (checksum_content cs n data).getD j 0 = (cs.getD j 0 + contribution data n j) % 256 := by
  induction n with
  | zero =>
    have h := getD_lt_of_is_bytes hb j
    simp only [checksum_content, contribution, List.range_zero, List.foldl_nil,
      Finset.range_zero, Finset.filter_empty, Finset.sum_empty, Nat.add_zero]
    exact (Nat.mod_eq_of_lt h).symm
  | succ n ih =>
    rw [checksum_content_succ, contribution_succ]
    unfold checksum_step
    rw [getD_set_eq, checksum_content_length, hlen]
    have hn : n % 256 < 256 := Nat.mod_lt _ (by norm_num)
    by_cases h : n % 256 = j
    · subst h
      simp only [hn, and_self, if_true]
      rw [ih]
      omega
    · simp only [h, false_and, if_false, Nat.add_zero]
      exact ih

theorem checksum_content_congr (cs : List Nat) (n : Nat) (d1 d2 : List Nat)
    (h : ∀ i, i < n → d1.getD i 0 = d2.getD i 0) :
    checksum_content cs n d1 = checksum_content cs n d2 := by
  induction n with
  | zero => simp [checksum_content]
  | succ n ih =>
    rw [checksum_content_succ, checksum_content_succ,
      ih (fun i hi => h i (Nat.lt_succ_of_lt hi))]
    unfold checksum_step
    rw [h n (Nat.lt_succ_self n)]

theorem getD_append_left (a b : List Nat) (i : Nat) (h : i < a.length) :
    (a ++ b).getD i 0 = a.getD i 0 := by
  simp [List.getD_eq_getElem?_getD, List.getElem?_append_left h]

theorem getD_append_right (a b : List Nat) (i : Nat) :
    (a ++ b).getD (a.length + i) 0 = b.getD i 0 := by
  simp [List.getD_eq_getElem?_getD, List.getElem?_append_right]

/-- The null byte stored after the block by `file_read_block` is not read by
`checksum_content`. -/
theorem checksum_content_block (cs d t : List Nat) :
    checksum_content cs d.length (d ++ t) = checksum_content cs d.length d :=
  checksum_content_congr cs d.length _ _ (fun i hi => getD_append_left d t i hi)

theorem checksum_content_append_aux (cs a b : List Nat) (h : 256 ∣ a.length) (m : Nat) :
    checksum_content cs (a.length + m) (a ++ b) =
      checksum_content (checksum_content cs a.length a) m b := by
  induction m with
  | zero =>
    rw [Nat.add_zero, checksum_content_block]
    simp [checksum_content]
  | succ m ih =>
    rw [← Nat.add_assoc, checksum_content_succ, checksum_content_succ, ih]
    unfold checksum_step
    have h8 : 8 ∣ a.length := Dvd.dvd.trans (by norm_num) h
    have e1 : (a.length + m) % 256 = m % 256 := by omega
    have e2 : (a.length + m) % 8 = m % 8 := by omega
    rw [e1, e2, getD_append_right]

theorem checksum_content_append (cs a b : List Nat) (h : 256 ∣ a.length) :
    checksum_content cs (a ++ b).length (a ++ b) =
      checksum_content (checksum_content cs a.length a) b.length b := by
  rw [List.length_append, checksum_content_append_aux cs a b h]

theorem checksum_content_is_bytes (cs : List Nat) (hb : is_bytes cs) (n : Nat) (data : List Nat) :
    is_bytes (checksum_content cs n data) := by
  induction n with
  | zero => simpa [checksum_content] using hb
  | succ n ih =>
    rw [checksum_content_succ]
    intro x hx
    unfold checksum_step at hx
    rcases List.mem_or_eq_of_mem_set hx with h | h
    · exact ih x h
    · rw [h]; exact Nat.mod_lt _ (by norm_num)

/-! ## C strings: lemmas -/

theorem c_string_of_no_nul (name : List Nat) (h : 0 ∉ name) : c_string name = name := by
  unfold c_string
  rw [List.takeWhile_eq_self_iff]
  intro x hx
  have : x ≠ 0 := fun e => h (e ▸ hx)
  simpa using this

theorem c_string_no_nul (name : List Nat) : 0 ∉ c_string name := by
  intro h
  have := List.mem_takeWhile_imp h
  simp at this

theorem terminated_split (l : List Nat) : ∃ t, l ++ [0] = c_string l ++ 0 :: t := by
  induction l with
  | nil => exact ⟨[], rfl⟩
  | cons a l ih =>
    obtain ⟨t, ht⟩ := ih
    by_cases h : a = 0
    · subst h
      exact ⟨l ++ [0], by simp [c_string]⟩
    · refine ⟨t, ?_⟩
      have : c_string (a :: l) = a :: c_string l := by simp [c_string, h]
      rw [this, List.cons_append, ht, List.cons_append]

theorem strlen_split (c t : List Nat) (h : 0 ∉ c) : strlen (c ++ 0 :: t) = c.length := by
  unfold strlen
  induction c with
  | nil => simp
  | cons a c ih =>
    have ha : a ≠ 0 := fun e => h (by simp [e])
    have hc : 0 ∉ c := fun e => h (List.mem_cons_of_mem _ e)
    simp [ha, ih hc]

theorem strcmp_split (a : List Nat) : ∀ (e t : List Nat), 0 ∉ a → 0 ∉ e →
    (strcmp (a ++ 0 :: t) (e ++ [0]) = 0 ↔ a = e) := by
  induction a with
  | nil =>
    intro e t _ he
    cases e with
    | nil => simp [strcmp]
    | cons x e =>
      have hx : x ≠ 0 := fun h => he (by simp [h])
      simp [strcmp, hx, Ne.symm hx]
  | cons y a ih =>
    intro e t ha he
    have hy : y ≠ 0 := fun h => ha (by simp [h])
    have ha2 : 0 ∉ a := fun h => ha (List.mem_cons_of_mem _ h)
    cases e with
    | nil => simp [strcmp, hy]
    | cons x e =>
      have he2 : 0 ∉ e := fun h => he (List.mem_cons_of_mem _ h)
      by_cases hxy : y = x
      · subst hxy
        simp [strcmp, hy, ih e t ha2 he2]
      · have : (y : Int) - (x : Int) ≠ 0 := by omega
        simp [strcmp, hxy, this]

theorem drop_eq_iff_suffix (c e : List Nat) (h : e.length ≤ c.length) :
    c.drop (c.length - e.length) = e ↔ e <:+ c := by
  constructor
  · intro hd
    rw [← hd]
    exact List.drop_suffix _ _
  · rintro ⟨p, rfl⟩
    simp

/-- The test of `str_ends_with` on a terminated buffer is the suffix test on
the C string the buffer holds. -/
theorem str_ends_with_terminated (name e : List Nat) (he : 0 ∉ e) :
    str_ends_with (name ++ [0]) (e ++ [0]) = decide (e <:+ c_string name) := by
  obtain ⟨t, ht⟩ := terminated_split name
  have hc := c_string_no_nul name
  unfold str_ends_with
  rw [ht, strlen_split _ _ hc]
  have hle : strlen (e ++ [0]) = e.length := strlen_split e [] he
  rw [hle]
  by_cases hlt : e.length > (c_string name).length
  · simp only [hlt, if_true]
    symm
    rw [decide_eq_false_iff_not]
    intro hs
    have := hs.length_le
    omega
  · simp only [hlt, if_false]
    have hle2 : e.length ≤ (c_string name).length := Nat.le_of_not_lt hlt
    rw [List.drop_append_of_le_length (by omega)]
    have hd : 0 ∉ (c_string name).drop ((c_string name).length - e.length) :=
      fun h => hc (List.mem_of_mem_drop h)
    have key := strcmp_split _ e t hd he
    have key2 := drop_eq_iff_suffix (c_string name) e hle2
    by_cases hs : e <:+ c_string name
    · simp [hs, key.2 (key2.2 hs)]
    · have : ¬ strcmp ((c_string name).drop ((c_string name).length - e.length) ++ 0 :: t)
          (e ++ [0]) = 0 := fun h => hs (key2.1 (key.1 h))
      simp [hs, this]

/-! ## The stream: lemmas -/

theorem stands_start (b : List Nat) (p : Nat) : stands b p 0 p := ⟨Nat.le_refl _, Or.inl rfl⟩

theorem stands_full {b : List Nat} {p o q : Nat} (h : stands b p o q)
    (hlen : p + o ≤ b.length) : q = p + o := by
  rcases h with ⟨h1, h2 | h2⟩
  · exact h2
  · omega

theorem stands_take {b : List Nat} {p o q : Nat} (h : stands b p o q) (n : Nat) :
    (b.drop q).take n = (b.drop (p + o)).take n := by
  rcases h with ⟨h1, h2 | h2⟩
  · rw [h2]
  · rw [List.drop_eq_nil_of_le h2, List.drop_eq_nil_of_le (Nat.le_trans h2 h1)]

theorem fread_fst (b : List Nat) (q n : Nat) : (fread ⟨b, q⟩ n).1 = (b.drop q).take n := rfl

theorem fread_snd (b : List Nat) (q n : Nat) :
    (fread ⟨b, q⟩ n).2 = ⟨b, q + min n (b.length - q)⟩ := by
  simp [fread]

theorem stands_read {b : List Nat} {p o q : Nat} (h : stands b p o q) (n : Nat) :
    stands b p (o + n) (q + min n (b.length - q)) := by
  unfold stands at *
  rcases Nat.le_total n (b.length - q) with hn | hn
  · rw [Nat.min_eq_left hn]; omega
  · rw [Nat.min_eq_right hn]; omega

theorem stands_skip {b : List Nat} {p o q : Nat} (h : stands b p o q) (n : Nat) :
    stands b p (o + n) (q + n) := by
  unfold stands at *
  omega

theorem read16_spec {b : List Nat} {p o q : Nat} (h : stands b p o q) :
    file_read_uint16 ⟨b, q⟩ = (u16_at b (p + o), ⟨b, q + min 2 (b.length - q)⟩) := by
  unfold file_read_uint16 u16_at
  simp only [fread_fst, fread_snd, stands_take h]

theorem read32_spec {b : List Nat} {p o q : Nat} (h : stands b p o q) :
    file_read_uint32 ⟨b, q⟩ = (u32_at b (p + o), ⟨b, q + min 4 (b.length - q)⟩) := by
  unfold file_read_uint32 u32_at
  simp only [fread_fst, fread_snd, stands_take h]

theorem main_read_header_spec {b : List Nat} {p q0 : Nat} (h : stands b p 4 q0) :
    ∃ q, stands b p 30 q ∧
      main_read_header ⟨b, q0⟩ =
        { flags := u16_at b (p + 6)
          data_size := u32_at b (p + 18)
          name_size := min (u16_at b (p + 26)) 511
          extra_size := u16_at b (p + 28)
          file := ⟨b, q⟩ } := by
  have h1 := stands_read h 2
  have h2 := stands_read h1 2
  have h3 := stands_skip h2 10
  have h4 := stands_read h3 4
  have h5 := stands_read h4 4
  have h6 := stands_read h5 2
  have h7 := stands_read h6 2
  refine ⟨_, h7, ?_⟩
  unfold main_read_header
  simp only [read16_spec h, read16_spec h1, file_skip, read32_spec h3, read32_spec h4,
    read16_spec h5, read16_spec h6]
  congr 1
  rcases Nat.lt_or_ge 511 (u16_at b (p + 26)) with hn | hn
  · simp [hn, Nat.min_eq_right (Nat.le_of_lt hn)]
  · simp [Nat.not_lt.2 hn, Nat.min_eq_left hn]

theorem file_read_block_spec {b : List Nat} {p o q : Nat} (h : stands b p o q) (n : Nat) :
    file_read_block ⟨b, q⟩ n =
      if b.length - (p + o) < n then (none, ⟨b, q + min n (b.length - q)⟩)
      else (some ((b.drop (p + o)).take n ++ [0]), ⟨b, q + n⟩) := by
  unfold file_read_block
  simp only [fread_fst, fread_snd, stands_take h, List.length_take, List.length_drop]
  by_cases hn : b.length - (p + o) < n
  · have : min n (b.length - (p + o)) ≠ n := by
      rw [Nat.min_eq_right (Nat.le_of_lt hn)]; omega
    simp [hn, this]
  · have e1 : min n (b.length - (p + o)) = n := Nat.min_eq_left (Nat.le_of_not_lt hn)
    have e2 : min n (b.length - q) = n := by
      apply Nat.min_eq_left
      have := h.1
      omega
    simp [hn, e1, e2]

/-! ## One pass of the loop -/

theorem skip_descriptor (b : List Nat) (r flags : Nat) :
    (if flags &&& (1 <<< 3) ≠ 0 then file_skip ⟨b, r⟩ 16 else (⟨b, r⟩ : FILE)) =
      ⟨b, r + descriptor_skip flags⟩ := by
  unfold descriptor_skip file_skip
  split <;> rfl

theorem read32_start (b : List Nat) (p : Nat) :
    file_read_uint32 ⟨b, p⟩ = (u32_at b p, ⟨b, p + min 4 (b.length - p)⟩) :=
  read32_spec (stands_start b p)

theorem loop_body_stop (b : List Nat) (p : Nat) (cs : List Nat) (h : u32_at b p ≠ zip_magic) :
    loop_body ⟨b, p⟩ cs = Iter.brk := by
  unfold loop_body
  simp only [read32_start]
  exact if_pos h

theorem main_consume_spec {b : List Nat} {p o r : Nat} (h : stands b p o r)
    (flags c : Nat) (name cs : List Nat) :
    main_consume flags c name ⟨b, r⟩ cs =
      if is_relevant name then
        (if b.length - (p + o) < c then Iter.ret 1 msg_data_failed
         else Iter.next ⟨b, r + c + descriptor_skip flags⟩
           (checksum_content cs c ((b.drop (p + o)).take c ++ [0])))
      else Iter.next ⟨b, r + c + descriptor_skip flags⟩ cs := by
  unfold main_consume
  by_cases hr : is_relevant name = true
  · simp only [hr, if_true]
    rw [file_read_block_spec h]
    by_cases hc : b.length - (p + o) < c
    · simp only [hc, if_true]
    · simp only [hc, if_false, skip_descriptor]
  · simp only [hr, if_false, Bool.false_eq_true]
    rw [← skip_descriptor]
    rfl

theorem loop_body_header (b : List Nat) (p : Nat) (cs : List Nat)
    (hm : u32_at b p = zip_magic) :
    ∃ q, stands b p 30 q ∧
      loop_body ⟨b, p⟩ cs =
        main_entry
          { flags := u16_at b (p + 6)
            data_size := u32_at b (p + 18)
            name_size := min (u16_at b (p + 26)) 511
            extra_size := u16_at b (p + 28)
            file := ⟨b, q⟩ } cs := by
  have h0 : stands b p 4 _ := stands_read (stands_start b p) 4
  obtain ⟨q, hq, hh⟩ := main_read_header_spec h0
  refine ⟨q, hq, ?_⟩
  unfold loop_body
  simp only [read32_start, hh]
  exact if_neg (not_not.2 hm)

theorem loop_body_name_short (b : List Nat) (p : Nat) (cs : List Nat)
    (hm : u32_at b p = zip_magic)
    (hn : b.length - (p + 30) < min (u16_at b (p + 26)) 511) :
    loop_body ⟨b, p⟩ cs = Iter.ret 1 [] := by
  obtain ⟨q, hq, hh⟩ := loop_body_header b p cs hm
  rw [hh]
  unfold main_entry
  simp only [file_read_block_spec hq, hn, if_true]

theorem loop_body_entry (b : List Nat) (p : Nat) (cs : List Nat)
    (hm : u32_at b p = zip_magic)
    (hn : min (u16_at b (p + 26)) 511 ≤ b.length - (p + 30)) :
    ∃ r, stands b p (30 + min (u16_at b (p + 26)) 511 + u16_at b (p + 28)) r ∧
      loop_body ⟨b, p⟩ cs =
        main_consume (u16_at b (p + 6)) (u32_at b (p + 18))
          ((b.drop (p + 30)).take (min (u16_at b (p + 26)) 511) ++ [0]) ⟨b, r⟩ cs := by
  obtain ⟨q, hq, hh⟩ := loop_body_header b p cs hm
  refine ⟨q + min (u16_at b (p + 26)) 511 + u16_at b (p + 28),
    stands_skip (stands_skip hq _) _, ?_⟩
  rw [hh]
  unfold main_entry
  simp only [file_read_block_spec hq, Nat.not_lt.2 hn, if_false, file_skip]

/-- One pass over an entry whose name block is present: what `loop_body` does
in terms of the offsets of the entry in the content. -/
theorem loop_body_entry_spec (b : List Nat) (p : Nat) (cs : List Nat)
    (hm : u32_at b p = zip_magic)
    (hn : min (u16_at b (p + 26)) 511 ≤ b.length - (p + 30)) :
    ∃ r, stands b p (30 + min (u16_at b (p + 26)) 511 + u16_at b (p + 28)) r ∧
      loop_body ⟨b, p⟩ cs =
        if is_relevant ((b.drop (p + 30)).take (min (u16_at b (p + 26)) 511) ++ [0]) then
          (if b.length - (p + (30 + min (u16_at b (p + 26)) 511 + u16_at b (p + 28)))
              < u32_at b (p + 18) then Iter.ret 1 msg_data_failed
           else Iter.next ⟨b, r + u32_at b (p + 18) + descriptor_skip (u16_at b (p + 6))⟩
             (checksum_content cs (u32_at b (p + 18))
               ((b.drop (p + (30 + min (u16_at b (p + 26)) 511 + u16_at b (p + 28)))).take
                 (u32_at b (p + 18)) ++ [0])))
        else Iter.next ⟨b, r + u32_at b (p + 18) + descriptor_skip (u16_at b (p + 6))⟩ cs := by
  obtain ⟨r, hr, hh⟩ := loop_body_entry b p cs hm hn
  exact ⟨r, hr, by rw [hh, main_consume_spec hr]⟩

theorem magic_present (b : List Nat) (p : Nat) (hm : u32_at b p = zip_magic) :
    p < b.length := by
  by_contra h
  have : b.drop p = [] := List.drop_eq_nil_of_le (Nat.le_of_not_lt h)
  simp [u32_at, this, le_value, zip_magic] at hm

/-- A pass that reaches the end of the body began inside the content and left
the stream further on, over the same content. -/
theorem loop_body_next {f f' : FILE} {cs cs' : List Nat}
    (h : loop_body f cs = Iter.next f' cs') :
    f.pos < f.bytes.length ∧ f.pos < f'.pos ∧ f'.bytes = f.bytes := by
  obtain ⟨b, p⟩ := f
  by_cases hm : u32_at b p = zip_magic
  · have hp := magic_present b p hm
    by_cases hn : min (u16_at b (p + 26)) 511 ≤ b.length - (p + 30)
    · obtain ⟨r, hr, hh⟩ := loop_body_entry_spec b p cs hm hn
      have hrp : p < r := by
        rcases hr with ⟨_, h2 | h2⟩ <;> omega
      rw [hh] at h
      split at h
      · split at h
        · exact absurd h (by simp)
        · injection h with h1 h2
          subst h1
          exact ⟨hp, by simp only; omega, rfl⟩
      · injection h with h1 h2
        subst h1
        exact ⟨hp, by simp only; omega, rfl⟩
    · rw [loop_body_name_short b p cs hm (Nat.lt_of_not_le hn)] at h
      exact absurd h (by simp)
  · rw [loop_body_stop b p cs hm] at h
    exact absurd h (by simp)

/-- Enough fuel: with more passes allowed than bytes remain, the loop ends, and
allowing more passes does not change how. -/
theorem main_loop_fuel : ∀ (n : Nat) (f : FILE) (cs : List Nat),
    f.bytes.length - f.pos < n →
      (∃ w, main_loop n f cs = some w) ∧ ∀ k, main_loop (n + k) f cs = main_loop n f cs := by
  intro n
  induction n with
  | zero => intro f cs h; omega
  | succ n ih =>
    intro f cs h
    have hk : ∀ k, n + 1 + k = (n + k) + 1 := fun k => by omega
    cases hb : loop_body f cs with
    | brk =>
      refine ⟨⟨Walk.done cs, by simp [main_loop, hb]⟩, fun k => ?_⟩
      rw [hk]; simp [main_loop, hb]
    | ret s out =>
      refine ⟨⟨Walk.failed s out, by simp [main_loop, hb]⟩, fun k => ?_⟩
      rw [hk]; simp [main_loop, hb]
    | next f' cs' =>
      obtain ⟨h1, h2, h3⟩ := loop_body_next hb
      have hm : f'.bytes.length - f'.pos < n := by rw [h3]; omega
      obtain ⟨hw, hind⟩ := ih f' cs' hm
      refine ⟨?_, fun k => ?_⟩
      · simpa [main_loop, hb] using hw
      · rw [hk]; simp only [main_loop, hb]; exact hind k

theorem main_loop_fuel_eq (n n' : Nat) (f : FILE) (cs : List Nat)
    (h : f.bytes.length - f.pos < n) (h' : f.bytes.length - f.pos < n') :
    main_loop n f cs = main_loop n' f cs := by
  rcases Nat.le_total n n' with hle | hle
  · obtain ⟨k, rfl⟩ := Nat.exists_eq_add_of_le hle
    exact ((main_loop_fuel n f cs h).2 k).symm
  · obtain ⟨k, rfl⟩ := Nat.exists_eq_add_of_le hle
    exact (main_loop_fuel n' f cs h').2 k

/-- The state after `k` complete passes is over the same content, and the loop
from the start ends as the loop from that state does. -/
theorem main_iterate_loop : ∀ (k : Nat) (f : FILE) (cs : List Nat) (f' : FILE) (cs' : List Nat),
    main_iterate k f cs = some (f', cs') →
      f'.bytes = f.bytes ∧ f.pos ≤ f'.pos ∧
        ∀ n, f.bytes.length - f.pos < n → main_loop n f cs = main_loop n f' cs' := by
  intro k
  induction k with
  | zero =>
    intro f cs f' cs' h
    simp only [main_iterate, Option.some.injEq, Prod.mk.injEq] at h
    obtain ⟨rfl, rfl⟩ := h
    exact ⟨rfl, Nat.le_refl _, fun _ _ => rfl⟩
  | succ k ih =>
    intro f cs f' cs' h
    cases hb : loop_body f cs with
    | brk => simp [main_iterate, hb] at h
    | ret s out => simp [main_iterate, hb] at h
    | next f1 cs1 =>
      simp only [main_iterate, hb] at h
      obtain ⟨h1, h2, h3⟩ := loop_body_next hb
      obtain ⟨i1, i2, i3⟩ := ih f1 cs1 f' cs' h
      refine ⟨i1.trans h3, by omega, fun n hn => ?_⟩
      cases n with
      | zero => omega
      | succ n =>
        have hm : f1.bytes.length - f1.pos < n := by rw [h3]; omega
        have hm' : f1.bytes.length - f1.pos < n + 1 := by omega
        have e : main_loop (n + 1) f cs = main_loop n f1 cs1 := by
          simp only [main_loop, hb]
        rw [e, main_loop_fuel_eq n (n + 1) f1 cs1 hm hm']
        exact i3 (n + 1) hm'

/-- The loop of `main` always ends. -/
theorem walk_total (bytes : List Nat) : ∃ w, walk bytes = some w :=
  (main_loop_fuel (bytes.length + 1) ⟨bytes, 0⟩ checksum_init (by simp)).1

/-- The loop of `main` ends as the loop from any state it reaches does. -/
theorem walk_of_iterate (bytes : List Nat) (k : Nat) (f : FILE) (cs : List Nat)
    (h : main_iterate k ⟨bytes, 0⟩ checksum_init = some (f, cs)) :
    f.bytes = bytes ∧ walk bytes = main_loop (bytes.length + 1) f cs := by
  obtain ⟨h1, _, h3⟩ := main_iterate_loop k _ _ _ _ h
  exact ⟨h1, h3 (bytes.length + 1) (by simp)⟩

/-! ## Well-formed archives -/

theorem header_length (e : Entry) : e.header.length = 30 := by
  simp [Entry.header, le16, le32]

theorem header_magic (e : Entry) (t : List Nat) : u32_at (e.header ++ t) 0 = zip_magic := by
  simp [Entry.header, u32_at, le_value, zip_magic]

theorem header_flags (e : Entry) (t : List Nat) (h : e.flags < 2 ^ 16) :
    u16_at (e.header ++ t) 6 = e.flags := by
  simp [Entry.header, le16, le32, u16_at, le_value]
  omega

theorem header_data_size (e : Entry) (t : List Nat) (h : e.data.length < 2 ^ 32) :
    u32_at (e.header ++ t) 18 = e.data.length := by
  simp [Entry.header, le16, le32, u32_at, le_value]
  omega

theorem header_name_size (e : Entry) (t : List Nat) (h : e.name.length < 2 ^ 16) :
    u16_at (e.header ++ t) 26 = e.name.length := by
  simp [Entry.header, le16, le32, u16_at, le_value]
  omega

theorem header_extra_size (e : Entry) (t : List Nat) (h : e.extra.length < 2 ^ 16) :
    u16_at (e.header ++ t) 28 = e.extra.length := by
  simp [Entry.header, le16, le32, u16_at, le_value]
  omega

theorem drop_pre (pre l : List Nat) (i : Nat) : (pre ++ l).drop (pre.length + i) = l.drop i := by
  induction pre with
  | nil => simp
  | cons a pre ih => simp [Nat.succ_add, ih]

theorem u16_at_pre (pre l : List Nat) (i : Nat) : u16_at (pre ++ l) (pre.length + i) = u16_at l i := by
  unfold u16_at; rw [drop_pre]

theorem u32_at_pre (pre l : List Nat) (i : Nat) : u32_at (pre ++ l) (pre.length + i) = u32_at l i := by
  unfold u32_at; rw [drop_pre]

theorem take_drop_mid (x s y : List Nat) : ((x ++ (s ++ y)).drop x.length).take s.length = s := by
  simp

theorem is_relevant_terminated (name : List Nat) :
    is_relevant (name ++ [0]) =
      decide ([0x2e, 0x73, 0x6f] <:+ c_string name ∨
        [0x63, 0x6c, 0x61, 0x73, 0x73, 0x65, 0x73, 0x2e, 0x64, 0x65, 0x78] <:+ c_string name) := by
  unfold is_relevant
  have h1 := str_ends_with_terminated name [0x2e, 0x73, 0x6f] (by decide)
  have h2 := str_ends_with_terminated name
    [0x63, 0x6c, 0x61, 0x73, 0x73, 0x65, 0x73, 0x2e, 0x64, 0x65, 0x78] (by decide)
  have e1 : lit_so = [0x2e, 0x73, 0x6f] ++ [0] := rfl
  have e2 : lit_classes_dex =
    [0x63, 0x6c, 0x61, 0x73, 0x73, 0x65, 0x73, 0x2e, 0x64, 0x65, 0x78] ++ [0] := rfl
  rw [e1, e2, h1, h2, Bool.decide_or]

theorem descriptor_skip_eq (flags : Nat) :
    descriptor_skip flags = if flags &&& 8 ≠ 0 then 16 else 0 := rfl

/-- One pass over a well-formed entry: the stream moves to the end of the entry
and the data is folded exactly when the name qualifies. -/
theorem loop_body_encoded (pre post : List Nat) (e : Entry) (cs : List Nat)
    (hwf : e.well_formed) :
    loop_body ⟨pre ++ e.encode ++ post, pre.length⟩ cs =
      Iter.next ⟨pre ++ e.encode ++ post, (pre ++ e.encode).length⟩
        (if e.qualifies then checksum_content cs e.data.length e.data else cs) := by
  obtain ⟨hfl, hnl, hnz, hxl, hdl, hdesc⟩ := hwf
  generalize hdd : (if e.flags &&& 8 ≠ 0 then e.descriptor else []) = desc
  have hlen_desc : desc.length = descriptor_skip e.flags := by
    rw [← hdd, descriptor_skip_eq]
    split <;> simp [hdesc]
  have henc : e.encode = e.header ++ (e.name ++ (e.extra ++ (e.data ++ desc))) := by
    simp [Entry.encode, hdd, List.append_assoc]
  generalize hb : pre ++ e.encode ++ post = b
  have hb1 : b = pre ++ (e.header ++ (e.name ++ (e.extra ++ (e.data ++ (desc ++ post))))) := by
    rw [← hb, henc]; simp [List.append_assoc]
  have hb2 : b = (pre ++ e.header) ++ (e.name ++ (e.extra ++ (e.data ++ (desc ++ post)))) := by
    rw [hb1]; simp [List.append_assoc]
  have hb3 : b = (pre ++ e.header ++ e.name ++ e.extra) ++ (e.data ++ (desc ++ post)) := by
    rw [hb1]; simp [List.append_assoc]
  have hlen : b.length = pre.length + 30 + e.name.length + e.extra.length + e.data.length
      + desc.length + post.length := by
    rw [hb1]; simp [header_length]; omega
  have hm : u32_at b pre.length = zip_magic := by
    have := u32_at_pre pre (e.header ++ (e.name ++ (e.extra ++ (e.data ++ (desc ++ post))))) 0
    rw [Nat.add_zero, ← hb1] at this
    rw [this, header_magic]
  have hflags : u16_at b (pre.length + 6) = e.flags := by
    rw [hb1, u16_at_pre, header_flags _ _ hfl]
  have hds : u32_at b (pre.length + 18) = e.data.length := by
    rw [hb1, u32_at_pre, header_data_size _ _ hdl]
  have hns : u16_at b (pre.length + 26) = e.name.length := by
    rw [hb1, u16_at_pre, header_name_size _ _ (by omega)]
  have hxs : u16_at b (pre.length + 28) = e.extra.length := by
    rw [hb1, u16_at_pre, header_extra_size _ _ hxl]
  have hmin : min e.name.length 511 = e.name.length := Nat.min_eq_left hnl
  have hname : (b.drop (pre.length + 30)).take e.name.length = e.name := by
    have := take_drop_mid (pre ++ e.header) e.name (e.extra ++ (e.data ++ (desc ++ post)))
    rw [← hb2] at this
    simp [header_length] at this
    exact this
  have hdata : (b.drop (pre.length + (30 + e.name.length + e.extra.length))).take e.data.length
      = e.data := by
    have := take_drop_mid (pre ++ e.header ++ e.name ++ e.extra) e.data (desc ++ post)
    rw [← hb3] at this
    have hl : (pre ++ e.header ++ e.name ++ e.extra).length
        = pre.length + (30 + e.name.length + e.extra.length) := by
      simp [header_length]; omega
    rw [hl] at this
    exact this
  obtain ⟨r, hr, hh⟩ := loop_body_entry_spec b pre.length cs hm (by rw [hns, hmin]; omega)
  rw [hns, hmin, hxs] at hr
  have hr2 : r = pre.length + (30 + e.name.length + e.extra.length) :=
    stands_full hr (by omega)
  rw [hh, hns, hmin, hxs, hds, hflags, hname, hdata, is_relevant_terminated,
    c_string_of_no_nul _ hnz, checksum_content_block]
  have hpos : r + e.data.length + descriptor_skip e.flags = (pre ++ e.encode).length := by
    rw [henc]; simp [header_length]; omega
  rw [hpos]
  by_cases hq : e.qualifies
  · have hq' := hq
    unfold Entry.qualifies at hq'
    have hshort : ¬ (b.length - (pre.length + (30 + e.name.length + e.extra.length))
        < e.data.length) := by omega
    simp only [hq, hq', decide_True, if_true, hshort, if_false]
  · have hq' := hq
    unfold Entry.qualifies at hq'
    simp [hq, hq']

theorem le_value_magic_iff (l : List Nat) (hb : is_bytes l) :
    le_value (l.take 4) = zip_magic ↔ signature <+: l := by
  unfold zip_magic signature
  constructor
  · intro h
    match l, hb, h with
    | [], _, h => simp [le_value] at h
    | [a], hb, h =>
      have ha : a < 256 := hb a (by simp)
      simp only [List.take, le_value] at h
      omega
    | [a, b], hb, h =>
      have ha : a < 256 := hb a (by simp)
      have hb' : b < 256 := hb b (by simp)
      simp only [List.take, le_value] at h
      omega
    | [a, b, c], hb, h =>
      have ha : a < 256 := hb a (by simp)
      have hb' : b < 256 := hb b (by simp)
      have hc : c < 256 := hb c (by simp)
      simp only [List.take, le_value] at h
      omega
    | a :: b :: c :: d :: t, hb, h =>
      have ha : a < 256 := hb a (by simp)
      have hb' : b < 256 := hb b (by simp)
      have hc : c < 256 := hb c (by simp)
      have hd : d < 256 := hb d (by simp)
      simp only [List.take, le_value] at h
      have : a = 0x50 ∧ b = 0x4b ∧ c = 0x03 ∧ d = 0x04 := by omega
      obtain ⟨rfl, rfl, rfl, rfl⟩ := this
      exact ⟨t, rfl⟩
  · rintro ⟨t, rfl⟩
    simp [le_value]

theorem u32_at_zero (l : List Nat) : u32_at l 0 = le_value (l.take 4) := by
  simp [u32_at]

theorem archive_cons (e : Entry) (es : List Entry) : archive (e :: es) = e.encode ++ archive es := by
  simp [archive]

theorem fold_entries_cons (cs : List Nat) (e : Entry) (es : List Entry) :
    fold_entries cs (e :: es) =
      fold_entries (if e.qualifies then checksum_content cs e.data.length e.data else cs) es := by
  by_cases h : e.qualifies
  · simp [fold_entries, List.filter_cons, h]
  · simp [fold_entries, List.filter_cons, h]

theorem encode_length_pos (e : Entry) : 0 < e.encode.length := by
  simp [Entry.encode, header_length]

/-- The loop over a well-formed archive, from the start of any of its entries. -/
theorem main_loop_archive : ∀ (es : List Entry) (pre rest cs : List Nat) (n : Nat),
    (∀ e ∈ es, e.well_formed) → u32_at rest 0 ≠ zip_magic →
    (pre ++ archive es ++ rest).length - pre.length < n →
    main_loop n ⟨pre ++ archive es ++ rest, pre.length⟩ cs =
      some (Walk.done (fold_entries cs es)) := by
  intro es
  induction es with
  | nil =>
    intro pre rest cs n _ hrest hn
    cases n with
    | zero => omega
    | succ n =>
      have hstop : loop_body ⟨pre ++ archive [] ++ rest, pre.length⟩ cs = Iter.brk := by
        apply loop_body_stop
        have := u32_at_pre pre rest 0
        simpa [archive] using (this ▸ hrest)
      simp only [main_loop, hstop]
      rfl
  | cons e es ih =>
    intro pre rest cs n hwf hrest hn
    cases n with
    | zero => omega
    | succ n =>
      have hb : pre ++ archive (e :: es) ++ rest = pre ++ e.encode ++ (archive es ++ rest) := by
        rw [archive_cons]; simp [List.append_assoc]
      have hb' : pre ++ e.encode ++ (archive es ++ rest) = (pre ++ e.encode) ++ archive es ++ rest := by
        simp [List.append_assoc]
      have hstep := loop_body_encoded pre (archive es ++ rest) e cs (hwf e (by simp))
      have hpos := encode_length_pos e
      rw [hb] at hn ⊢
      simp only [main_loop, hstep]
      rw [fold_entries_cons]
      rw [hb'] at hn ⊢
      apply ih _ _ _ _ (fun e' he' => hwf e' (by simp [he'])) hrest
      simp only [List.length_append] at hn ⊢
      omega

theorem walk_archive (es : List Entry) (rest : List Nat)
    (hwf : ∀ e ∈ es, e.well_formed) (hrest : u32_at rest 0 ≠ zip_magic) :
    walk (archive es ++ rest) = some (Walk.done (fold_entries checksum_init es)) := by
  have := main_loop_archive es [] rest checksum_init ((archive es ++ rest).length + 1) hwf hrest
    (by simp)
  simpa [walk] using this

theorem main_of_walk_done {bytes cs : List Nat} (h : walk bytes = some (Walk.done cs)) :
    main bytes = some (0, print_checksum cs) := by
  simp [main, h]

theorem main_of_walk_failed {bytes : List Nat} {s : Nat} {out : List Char}
    (h : walk bytes = some (Walk.failed s out)) : main bytes = some (s, out) := by
  simp [main, h]

theorem not_magic_of_not_signature (rest : List Nat) (hb : is_bytes rest)
    (h : ¬ signature <+: rest) : u32_at rest 0 ≠ zip_magic := by
  rw [u32_at_zero]
  exact fun e => h ((le_value_magic_iff rest hb).1 e)

theorem fold_entries_none (cs : List Nat) (es : List Entry) (h : ∀ e ∈ es, ¬ e.qualifies) :
    fold_entries cs es = cs := by
  unfold fold_entries
  have : es.filter (fun e => decide e.qualifies) = [] := by
    rw [List.filter_eq_nil_iff]
    intro e he
    simpa using h e he
  rw [this]
  rfl

theorem fold_entries_eq (cs : List Nat) (es : List Entry) :
    fold_entries cs es =
      (qualifying_data es).foldl (fun s d => checksum_content s d.length d) cs := by
  simp [fold_entries, qualifying_data, List.foldl_map]

theorem foldl_aligned : ∀ (ds : List (List Nat)) (cs : List Nat), aligned ds →
    ds.foldl (fun s d => checksum_content s d.length d) cs =
      checksum_content cs ds.flatten.length ds.flatten := by
  intro ds
  induction ds with
  | nil => intro cs _; simp [checksum_content]
  | cons d ds ih =>
    intro cs h
    cases ds with
    | nil => simp
    | cons d' ds' =>
      have hd : 256 ∣ d.length := h d (by simp [List.dropLast])
      have hrest : aligned (d' :: ds') := by
        intro x hx
        exact h x (by simp [List.dropLast] at hx ⊢; exact Or.inr hx)
      rw [List.foldl_cons, ih _ hrest, List.flatten_cons (l := d),
        checksum_content_append cs d _ hd]

theorem u32_at_beyond (b : List Nat) (q : Nat) (h : b.length ≤ q) : u32_at b q = 0 := by
  simp [u32_at, List.drop_eq_nil_of_le h, le_value]

theorem main_of_iterate_ret (bytes : List Nat) (k : Nat) (f : FILE) (cs : List Nat)
    (s : Nat) (out : List Char)
    (hreach : main_iterate k ⟨bytes, 0⟩ checksum_init = some (f, cs))
    (hb : loop_body f cs = Iter.ret s out) : main bytes = some (s, out) := by
  obtain ⟨_, hw⟩ := walk_of_iterate bytes k f cs hreach
  apply main_of_walk_failed
  rw [hw]
  simp only [main_loop, hb]

theorem main_of_iterate_brk (bytes : List Nat) (k : Nat) (f : FILE) (cs : List Nat)
    (hreach : main_iterate k ⟨bytes, 0⟩ checksum_init = some (f, cs))
    (hb : loop_body f cs = Iter.brk) : main bytes = some (0, print_checksum cs) := by
  obtain ⟨_, hw⟩ := walk_of_iterate bytes k f cs hreach
  apply main_of_walk_done
  rw [hw]
  simp only [main_loop, hb]

theorem main_iterate_succ : ∀ (k : Nat) (f : FILE) (cs : List Nat) (f1 : FILE) (cs1 : List Nat)
    (f2 : FILE) (cs2 : List Nat),
    main_iterate k f cs = some (f1, cs1) → loop_body f1 cs1 = Iter.next f2 cs2 →
      main_iterate (k + 1) f cs = some (f2, cs2) := by
  intro k
  induction k with
  | zero =>
    intro f cs f1 cs1 f2 cs2 h hb
    simp only [main_iterate, Option.some.injEq, Prod.mk.injEq] at h
    obtain ⟨rfl, rfl⟩ := h
    simp [main_iterate, hb]
  | succ k ih =>
    intro f cs f1 cs1 f2 cs2 h hb
    cases hb0 : loop_body f cs with
    | brk => simp [main_iterate, hb0] at h
    | ret s out => simp [main_iterate, hb0] at h
    | next f' cs' =>
      simp only [main_iterate, hb0] at h
      have := ih f' cs' f1 cs1 f2 cs2 h hb
      rw [main_iterate, hb0]
      exact this

/-! ## The claims -/

/-- C1: for a list of well-formed entries (name of at most 511 bytes without a
zero byte, extra field shorter than 2^16, data shorter than 2^32, 16-bit
flags) laid out one after the other and followed by the end of the file or by
bytes that do not begin with the signature, the loop ends by `break`, `main`
returns 0, and the final state is `checksum_content` applied in turn, from the
zero state, to the data of the entries whose name ends in `.so` or
`classes.dex`. -/
theorem main_archive_checksum (es : List Entry) (rest : List Nat)
    (hwf : ∀ e ∈ es, e.well_formed) (hbytes : is_bytes rest)
    (hrest : ¬ signature <+: rest) :
    walk (archive es ++ rest) =
        some (Walk.done
          ((es.filter (fun e => decide e.qualifies)).foldl
            (fun s e => checksum_content s e.data.length e.data) (List.replicate 256 0))) ∧
      main (archive es ++ rest) =
        some (0, print_checksum
          ((es.filter (fun e => decide e.qualifies)).foldl
            (fun s e => checksum_content s e.data.length e.data) (List.replicate 256 0))) := by
  have h := walk_archive es rest hwf (not_magic_of_not_signature rest hbytes hrest)
  exact ⟨h, main_of_walk_done h⟩

theorem main_archive_checksum_witness :
    (∀ e ∈ [sample_so, sample_txt, sample_dex], e.well_formed) ∧ is_bytes [0x50, 0x4b, 1, 2] ∧
      ¬ signature <+: [0x50, 0x4b, 1, 2] ∧
      walk (archive [sample_so, sample_txt, sample_dex] ++ [0x50, 0x4b, 1, 2]) =
        some (Walk.done
          (([sample_so, sample_txt, sample_dex].filter (fun e => decide e.qualifies)).foldl
            (fun s e => checksum_content s e.data.length e.data) (List.replicate 256 0))) :=
  ⟨by decide, by decide, by decide,
    (main_archive_checksum [sample_so, sample_txt, sample_dex] [0x50, 0x4b, 1, 2]
      (by decide) (by decide) (by decide)).1⟩

/-- C2: for a 256-byte state `s`, data of length `L` and an index `j < 256`,
the state after `checksum_content(s, L, data)` holds at `j` the value
`(s[j] + sum of key[i % 8] ^ data[i] over the i < L with i % 256 = j) % 256`,
with the key bytes `63 2b 72 33 6b 37 3a 31`. -/
theorem checksum_content_index (s : List Nat) (data : List Nat) (j : Nat)
    (hlen : s.length = 256) (hs : is_bytes s) (hj : j < 256) :
    (checksum_content s data.length data).getD j 0 =
      (s.getD j 0 +
        ∑ i in (Finset.range data.length).filter (fun i => i % 256 = j),
          ([0x63, 0x2b, 0x72, 0x33, 0x6b, 0x37, 0x3a, 0x31].getD (i % 8) 0 ^^^ data.getD i 0))
        % 256 := by
  rw [checksum_content_getD s hlen hs data.length data j hj]
  unfold contribution
  congr 2
  apply Finset.sum_congr rfl
  intro i _
  have h8 : i % 8 < 8 := Nat.mod_lt _ (by norm_num)
  have : gKey.getD (i % 8) 0 = [0x63, 0x2b, 0x72, 0x33, 0x6b, 0x37, 0x3a, 0x31].getD (i % 8) 0 := by
    unfold gKey
    interval_cases (i % 8) <;> rfl
  rw [this]

theorem checksum_content_index_witness :
    (List.replicate 256 7).length = 256 ∧ is_bytes (List.replicate 256 7) ∧ 1 < 256 ∧
      (checksum_content (List.replicate 256 7) [1, 2, 3].length [1, 2, 3]).getD 1 0 =
        ((List.replicate 256 7).getD 1 0 +
          ∑ i in (Finset.range [1, 2, 3].length).filter (fun i => i % 256 = 1),
            ([0x63, 0x2b, 0x72, 0x33, 0x6b, 0x37, 0x3a, 0x31].getD (i % 8) 0 ^^^
              [1, 2, 3].getD i 0)) % 256 :=
  ⟨by decide, by decide, by decide,
    checksum_content_index (List.replicate 256 7) [1, 2, 3] 1 (by decide) (by decide) (by decide)⟩

/-- C3 fails for a name with a zero byte: the six name bytes `a.so\0b` are read
whole, the test of line 146 on the buffer is true, yet the name ends neither in
`.so` nor in `classes.dex`. -/
theorem relevance_test_nul_counterexample :
    (file_read_block ⟨[0x61, 0x2e, 0x73, 0x6f, 0, 0x62], 0⟩ 6).1 =
        some [0x61, 0x2e, 0x73, 0x6f, 0, 0x62, 0] ∧
      (str_ends_with [0x61, 0x2e, 0x73, 0x6f, 0, 0x62, 0] lit_so ||
        str_ends_with [0x61, 0x2e, 0x73, 0x6f, 0, 0x62, 0] lit_classes_dex) = true ∧
      ¬ ([0x2e, 0x73, 0x6f] <:+ [0x61, 0x2e, 0x73, 0x6f, 0, 0x62] ∨
        [0x63, 0x6c, 0x61, 0x73, 0x73, 0x65, 0x73, 0x2e, 0x64, 0x65, 0x78] <:+
          [0x61, 0x2e, 0x73, 0x6f, 0, 0x62]) := by
  decide

/-- C3, amended: when `file_read_block` returns the name buffer, the buffer is
the name bytes read followed by a null byte, and the test of line 146 on it
holds exactly when the bytes of the name before its first zero byte (the whole
name when it has none) end in `.so` or in `classes.dex`. -/
theorem relevance_test_c_string (file : FILE) (size : Nat) (buf : List Nat) (file' : FILE)
    (h : file_read_block file size = (some buf, file')) :
    buf = (file.bytes.drop file.pos).take size ++ [0] ∧
      ((str_ends_with buf lit_so || str_ends_with buf lit_classes_dex) = true ↔
        ([0x2e, 0x73, 0x6f] <:+
            ((file.bytes.drop file.pos).take size).takeWhile (fun c => c != 0) ∨
          [0x63, 0x6c, 0x61, 0x73, 0x73, 0x65, 0x73, 0x2e, 0x64, 0x65, 0x78] <:+
            ((file.bytes.drop file.pos).take size).takeWhile (fun c => c != 0))) ∧
      (0 ∉ (file.bytes.drop file.pos).take size →
        ((str_ends_with buf lit_so || str_ends_with buf lit_classes_dex) = true ↔
          ([0x2e, 0x73, 0x6f] <:+ (file.bytes.drop file.pos).take size ∨
            [0x63, 0x6c, 0x61, 0x73, 0x73, 0x65, 0x73, 0x2e, 0x64, 0x65, 0x78] <:+
              (file.bytes.drop file.pos).take size))) := by
  have hbuf : buf = (file.bytes.drop file.pos).take size ++ [0] := by
    simp only [file_read_block] at h
    by_cases hl : (fread file size).1.length ≠ size
    · rw [if_pos hl] at h
      simp at h
    · rw [if_neg hl] at h
      simp only [Prod.mk.injEq, Option.some.injEq] at h
      rw [← h.1]
      rfl
  have key := is_relevant_terminated ((file.bytes.drop file.pos).take size)
  unfold is_relevant at key
  rw [← hbuf] at key
  refine ⟨hbuf, ?_, ?_⟩
  · rw [key]
    simp [c_string]
  · intro h0
    rw [key, c_string_of_no_nul _ h0]
    simp

theorem relevance_test_c_string_witness :
    file_read_block ⟨[9, 0x61, 0x2e, 0x73, 0x6f, 0, 0x62, 7], 1⟩ 6 =
        (some [0x61, 0x2e, 0x73, 0x6f, 0, 0x62, 0], ⟨[9, 0x61, 0x2e, 0x73, 0x6f, 0, 0x62, 7], 7⟩) ∧
      ((str_ends_with [0x61, 0x2e, 0x73, 0x6f, 0, 0x62, 0] lit_so ||
          str_ends_with [0x61, 0x2e, 0x73, 0x6f, 0, 0x62, 0] lit_classes_dex) = true ↔
        ([0x2e, 0x73, 0x6f] <:+
            (([9, 0x61, 0x2e, 0x73, 0x6f, 0, 0x62, 7].drop 1).take 6).takeWhile
              (fun c => c != 0) ∨
          [0x63, 0x6c, 0x61, 0x73, 0x73, 0x65, 0x73, 0x2e, 0x64, 0x65, 0x78] <:+
            (([9, 0x61, 0x2e, 0x73, 0x6f, 0, 0x62, 7].drop 1).take 6).takeWhile
              (fun c => c != 0))) :=
  ⟨by decide,
    (relevance_test_c_string ⟨[9, 0x61, 0x2e, 0x73, 0x6f, 0, 0x62, 7], 1⟩ 6
      [0x61, 0x2e, 0x73, 0x6f, 0, 0x62, 0] ⟨[9, 0x61, 0x2e, 0x73, 0x6f, 0, 0x62, 7], 7⟩
      (by decide)).2.1⟩

theorem loop_body_entry_at (b : List Nat) (p : Nat) (cs : List Nat)
    (hm : u32_at b p = zip_magic)
    (hn : p + 30 + min (u16_at b (p + 26)) 511 ≤ b.length) :
    loop_body ⟨b, p⟩ cs =
      main_consume (u16_at b (p + 6)) (u32_at b (p + 18))
        ((b.drop (p + 30)).take (min (u16_at b (p + 26)) 511) ++ [0])
        ⟨b, p + 30 + min (u16_at b (p + 26)) 511 + u16_at b (p + 28)⟩ cs := by
  obtain ⟨q, hq, hh⟩ := loop_body_header b p cs hm
  have hq2 : q = p + 30 := stands_full hq (by omega)
  subst hq2
  rw [hh]
  unfold main_entry
  have : ¬ (b.length - (p + 30) < min (u16_at b (p + 26)) 511) := by omega
  simp only [file_read_block_spec hq, this, if_false, file_skip]

/-- C4 fails when the same bytes are split at another place: one entry with
data `1 2` and two entries with data `1` and `2` are well-formed archives with
the same concatenated qualifying data and different final states. -/
theorem concatenation_counterexample :
    (∀ e ∈ [split_whole], e.well_formed) ∧ (∀ e ∈ [split_first, split_second], e.well_formed) ∧
      (qualifying_data [split_whole]).flatten =
        (qualifying_data [split_first, split_second]).flatten ∧
      walk (archive [split_whole]) ≠ walk (archive [split_first, split_second]) := by
  decide

/-- C4, amended: the final state is a function of the list of the qualifying
entries' data, entry boundaries included.  Two well-formed archives have the
same final state when their qualifying entries carry the same data entry by
entry, and also when the concatenations agree and, in both archives, every
qualifying entry but the last has a data length that is a multiple of 256. -/
theorem walk_of_qualifying_data (es1 es2 : List Entry) (rest1 rest2 : List Nat)
    (hwf1 : ∀ e ∈ es1, e.well_formed) (hwf2 : ∀ e ∈ es2, e.well_formed)
    (hb1 : is_bytes rest1) (hb2 : is_bytes rest2)
    (hr1 : ¬ signature <+: rest1) (hr2 : ¬ signature <+: rest2)
    (h : qualifying_data es1 = qualifying_data es2 ∨
      ((qualifying_data es1).flatten = (qualifying_data es2).flatten ∧
        aligned (qualifying_data es1) ∧ aligned (qualifying_data es2))) :
    ∃ cs, walk (archive es1 ++ rest1) = some (Walk.done cs) ∧
      walk (archive es2 ++ rest2) = some (Walk.done cs) ∧
      main (archive es1 ++ rest1) = some (0, print_checksum cs) ∧
      main (archive es2 ++ rest2) = some (0, print_checksum cs) := by
  have w1 := walk_archive es1 rest1 hwf1 (not_magic_of_not_signature rest1 hb1 hr1)
  have w2 := walk_archive es2 rest2 hwf2 (not_magic_of_not_signature rest2 hb2 hr2)
  have e : fold_entries checksum_init es1 = fold_entries checksum_init es2 := by
    rw [fold_entries_eq, fold_entries_eq]
    rcases h with h | ⟨h, a1, a2⟩
    · rw [h]
    · rw [foldl_aligned _ _ a1, foldl_aligned _ _ a2, h]
  rw [← e] at w2
  exact ⟨_, w1, w2, main_of_walk_done w1, main_of_walk_done w2⟩

theorem walk_of_qualifying_data_witness :
    (∀ e ∈ [block_whole, sample_txt], e.well_formed) ∧
      (∀ e ∈ [block_first, split_second], e.well_formed) ∧
      (qualifying_data [block_whole, sample_txt]).flatten =
        (qualifying_data [block_first, split_second]).flatten ∧
      aligned (qualifying_data [block_whole, sample_txt]) ∧
      aligned (qualifying_data [block_first, split_second]) ∧
      ∃ cs, walk (archive [block_whole, sample_txt] ++ []) = some (Walk.done cs) ∧
        walk (archive [block_first, split_second] ++ [1]) = some (Walk.done cs) ∧
        main (archive [block_whole, sample_txt] ++ []) = some (0, print_checksum cs) ∧
        main (archive [block_first, split_second] ++ [1]) = some (0, print_checksum cs) :=
  ⟨by decide, by decide, by decide, by decide, by decide,
    walk_of_qualifying_data [block_whole, sample_txt] [block_first, split_second] [] [1]
      (by decide) (by decide) (by decide) (by decide) (by decide) (by decide)
      (Or.inr ⟨by decide, by decide, by decide⟩)⟩

/-- C5 fails for a name with a zero byte before the suffix: the only entry has
the five name bytes `a\0.so`, which end in `.so`, its header and name are
present and only three of its eight data bytes are; the test of line 146 sees
the C string `a`, the data is skipped, and `main` returns 0 and prints the
all-zero checksum. -/
theorem byte_suffix_short_data_counterexample :
    u32_at cut_nul_before_suffix 0 = 0x04034b50 ∧
      (cut_nul_before_suffix.drop 30).take (min (u16_at cut_nul_before_suffix 26) 511) =
        [0x61, 0, 0x2e, 0x73, 0x6f] ∧
      [0x2e, 0x73, 0x6f] <:+ [0x61, 0, 0x2e, 0x73, 0x6f] ∧
      cut_nul_before_suffix.length -
          (0 + 30 + min (u16_at cut_nul_before_suffix (0 + 26)) 511 +
            u16_at cut_nul_before_suffix (0 + 28)) <
        u32_at cut_nul_before_suffix (0 + 18) ∧
      main cut_nul_before_suffix = some (0, print_checksum (List.replicate 256 0)) := by
  exact ⟨by decide, by decide, by decide, by decide, by rfl⟩

/-- C5, amended: when the loop reaches a header (`k` complete passes lead to a
state whose cursor stands on the signature) whose name block is short, that is
fewer than `min(name length, 511)` bytes remain after the header, or whose name,
taken up to its first zero byte (the whole name when it has none), ends in
`.so` or `classes.dex` and whose data block is short, that is fewer than the
compressed size remain after the extra field, `main` returns 1; the only text
printed is nothing for the name and the message of line 150 for the data, so no
checksum byte is printed. -/
theorem main_short_block_fails (bytes : List Nat) (k : Nat) (f : FILE) (cs : List Nat)
    (hreach : main_iterate k ⟨bytes, 0⟩ (List.replicate 256 0) = some (f, cs))
    (hm : u32_at bytes f.pos = 0x04034b50)
    (hshort : bytes.length - (f.pos + 30) < min (u16_at bytes (f.pos + 26)) 511 ∨
      (ends_so_or_dex
          (((bytes.drop (f.pos + 30)).take (min (u16_at bytes (f.pos + 26)) 511)).takeWhile
            (fun c => c != 0)) ∧
        bytes.length -
            (f.pos + 30 + min (u16_at bytes (f.pos + 26)) 511 + u16_at bytes (f.pos + 28)) <
          u32_at bytes (f.pos + 18))) :
    main bytes =
      some (1,
        if bytes.length - (f.pos + 30) < min (u16_at bytes (f.pos + 26)) 511 then []
        else "Failed to read block of file data from zip structure.\n".toList) := by
  obtain ⟨hfb, _⟩ := walk_of_iterate bytes k f cs hreach
  obtain ⟨b, p⟩ := f
  simp only at hfb hm hshort ⊢
  subst hfb
  apply main_of_iterate_ret b k ⟨b, p⟩ cs 1 _ hreach
  by_cases hn : b.length - (p + 30) < min (u16_at b (p + 26)) 511
  · rw [if_pos hn]
    exact loop_body_name_short b p cs hm hn
  · rw [if_neg hn]
    rcases hshort with h | ⟨hends, hdata⟩
    · exact absurd h hn
    · obtain ⟨r, _, hh⟩ := loop_body_entry_spec b p cs hm (Nat.le_of_not_lt hn)
      have hdata' : b.length - (p + (30 + min (u16_at b (p + 26)) 511 + u16_at b (p + 28))) <
          u32_at b (p + 18) := by omega
      have hrel : is_relevant
          ((b.drop (p + 30)).take (min (u16_at b (p + 26)) 511) ++ [0]) = true := by
        rw [is_relevant_terminated]
        exact decide_eq_true hends
      rw [hh, if_pos hrel, if_pos hdata']
      rfl

theorem main_short_block_fails_witness :
    main_iterate 1 ⟨cut_in_data, 0⟩ (List.replicate 256 0) =
        some (⟨cut_in_data, 40⟩, List.replicate 256 0) ∧
      u32_at cut_in_data 40 = 0x04034b50 ∧
      ends_so_or_dex
        (((cut_in_data.drop (40 + 30)).take (min (u16_at cut_in_data (40 + 26)) 511)).takeWhile
          (fun c => c != 0)) ∧
      main cut_in_data =
        some (1, "Failed to read block of file data from zip structure.\n".toList) :=
  ⟨by decide, by decide, by decide,
    main_short_block_fails cut_in_data 1 ⟨cut_in_data, 40⟩ (List.replicate 256 0)
      (by decide) (by decide) (Or.inr ⟨by decide, by decide⟩)⟩

/-- C6 fails on the 4-byte file that holds only the signature: `main` returns 0
and prints the all-zero checksum. -/
theorem signature_only_counterexample :
    main [0x50, 0x4b, 0x03, 0x04] = some (0, print_checksum (List.replicate 256 0)) := by
  rfl

/-- C6, amended: the header fields are read without a check, the bytes that are
missing counting as zero.  When the loop reaches a signature followed by fewer
than 26 bytes, `main` returns 1 without printing anything exactly when the name
length so read is not zero; otherwise the entry counts as an empty-named entry
that is skipped, the loop stops at the next read, and `main` returns 0 and
prints the checksum accumulated so far. -/
theorem main_truncated_header (bytes : List Nat) (k : Nat) (f : FILE) (cs : List Nat)
    (hreach : main_iterate k ⟨bytes, 0⟩ (List.replicate 256 0) = some (f, cs))
    (hm : u32_at bytes f.pos = 0x04034b50)
    (htrunc : bytes.length - (f.pos + 4) < 26) :
    main bytes =
      if u16_at bytes (f.pos + 26) = 0 then some (0, print_checksum cs) else some (1, []) := by
  obtain ⟨hfb, _⟩ := walk_of_iterate bytes k f cs hreach
  obtain ⟨b, p⟩ := f
  simp only at hfb hm htrunc ⊢
  subst hfb
  have hp := magic_present b p hm
  by_cases hn : u16_at b (p + 26) = 0
  · rw [if_pos hn]
    obtain ⟨r, hr, hh⟩ := loop_body_entry_spec b p cs hm (by rw [hn]; simp)
    have hrel : is_relevant
        ((b.drop (p + 30)).take (min (u16_at b (p + 26)) 511) ++ [0]) = false := by
      rw [hn]; rfl
    rw [hrel] at hh
    simp only [Bool.false_eq_true, if_false] at hh
    have hr2 : b.length ≤ r := by
      rcases hr with ⟨_, h2 | h2⟩ <;> omega
    have hreach2 := main_iterate_succ k _ _ _ _ _ _ hreach hh
    exact main_of_iterate_brk b (k + 1) _ cs hreach2
      (loop_body_stop b _ cs (by rw [u32_at_beyond b _ (by omega)]; decide))
  · rw [if_neg hn]
    apply main_of_iterate_ret b k ⟨b, p⟩ cs 1 _ hreach
    apply loop_body_name_short b p cs hm
    have : 0 < min (u16_at b (p + 26)) 511 := by
      rw [Nat.lt_min]; omega
    omega

theorem main_truncated_header_witness :
    main_iterate 1 ⟨cut_in_header, 0⟩ (List.replicate 256 0) =
        some (⟨cut_in_header, 60⟩, checksum_content (List.replicate 256 0) 8 sample_so.data) ∧
      u32_at cut_in_header 60 = 0x04034b50 ∧ cut_in_header.length - (60 + 4) < 26 ∧
      main cut_in_header =
        if u16_at cut_in_header (60 + 26) = 0 then
          some (0, print_checksum (checksum_content (List.replicate 256 0) 8 sample_so.data))
        else some (1, []) :=
  ⟨by decide, by decide, by decide,
    main_truncated_header cut_in_header 1 ⟨cut_in_header, 60⟩
      (checksum_content (List.replicate 256 0) 8 sample_so.data)
      (by decide) (by decide) (by decide)⟩

/-- C7: at a header whose 30 bytes and name bytes are present, with declared
name length `n`, the pass reads exactly `min(n, 511)` bytes after the header as
the name (511 when `n > 511`, `n` otherwise), hands that buffer to the test of
line 146 in `main_consume`, and, after the extra-field skip that starts right
after those bytes, takes the data to begin at
`start + 30 + min(n, 511) + extra length`. -/
theorem name_length_clamp (bytes : List Nat) (start : Nat) (cs : List Nat)
    (hm : u32_at bytes start = 0x04034b50)
    (hpresent : start + 30 + min (u16_at bytes (start + 26)) 511 ≤ bytes.length) :
    ((bytes.drop (start + 30)).take (min (u16_at bytes (start + 26)) 511)).length =
        (if u16_at bytes (start + 26) > 511 then 511 else u16_at bytes (start + 26)) ∧
      loop_body ⟨bytes, start⟩ cs =
        main_consume (u16_at bytes (start + 6)) (u32_at bytes (start + 18))
          ((bytes.drop (start + 30)).take (min (u16_at bytes (start + 26)) 511) ++ [0])
          ⟨bytes, start + 30 + min (u16_at bytes (start + 26)) 511 + u16_at bytes (start + 28)⟩
          cs := by
  refine ⟨?_, loop_body_entry_at bytes start cs hm hpresent⟩
  rw [List.length_take, List.length_drop]
  split <;> omega

theorem name_length_clamp_witness :
    u32_at long_name 0 = 0x04034b50 ∧ u16_at long_name (0 + 26) = 600 ∧
      loop_body ⟨long_name, 0⟩ (List.replicate 256 0) =
        main_consume (u16_at long_name (0 + 6)) (u32_at long_name (0 + 18))
          ((long_name.drop (0 + 30)).take (min (u16_at long_name (0 + 26)) 511) ++ [0])
          ⟨long_name, 0 + 30 + min (u16_at long_name (0 + 26)) 511 + u16_at long_name (0 + 28)⟩
          (List.replicate 256 0) :=
  ⟨by decide, by decide,
    (name_length_clamp long_name 0 (List.replicate 256 0) (by decide) (by decide)).2⟩

/-- C8: after a pass over an entry whose header, name and data are present, the
next signature is read at
`start + 30 + min(name length, 511) + extra length + compressed size`, plus 16
exactly when bit 3 (mask `0x0008`) of the flags is set, whether the data was
folded or skipped. -/
theorem next_signature_offset (bytes : List Nat) (start : Nat) (cs : List Nat)
    (hm : u32_at bytes start = 0x04034b50)
    (hpresent : start + 30 + min (u16_at bytes (start + 26)) 511 + u16_at bytes (start + 28) +
      u32_at bytes (start + 18) ≤ bytes.length) :
    loop_body ⟨bytes, start⟩ cs =
      Iter.next
        ⟨bytes, start + 30 + min (u16_at bytes (start + 26)) 511 + u16_at bytes (start + 28) +
          u32_at bytes (start + 18) + (if u16_at bytes (start + 6) &&& 0x0008 ≠ 0 then 16 else 0)⟩
        (if is_relevant
            ((bytes.drop (start + 30)).take (min (u16_at bytes (start + 26)) 511) ++ [0]) then
          checksum_content cs (u32_at bytes (start + 18))
            ((bytes.drop
              (start + 30 + min (u16_at bytes (start + 26)) 511 + u16_at bytes (start + 28))).take
              (u32_at bytes (start + 18)) ++ [0])
        else cs) := by
  rw [loop_body_entry_at bytes start cs hm (by omega)]
  have hs : stands bytes
      (start + 30 + min (u16_at bytes (start + 26)) 511 + u16_at bytes (start + 28)) 0
      (start + 30 + min (u16_at bytes (start + 26)) 511 + u16_at bytes (start + 28)) :=
    stands_start _ _
  rw [main_consume_spec hs, ← descriptor_skip_eq]
  simp only [Nat.add_zero]
  have : ¬ (bytes.length -
      (start + 30 + min (u16_at bytes (start + 26)) 511 + u16_at bytes (start + 28)) <
        u32_at bytes (start + 18)) := by omega
  rw [if_neg this]
  split <;> rfl

theorem next_signature_offset_witness :
    u32_at (archive [sample_so, sample_txt]) 0 = 0x04034b50 ∧
      loop_body ⟨archive [sample_so, sample_txt], 0⟩ (List.replicate 256 0) =
        Iter.next ⟨archive [sample_so, sample_txt], 60⟩
          (checksum_content (List.replicate 256 0) 8 [0, 0, 0, 0, 0, 0, 0, 0, 0]) :=
  ⟨by decide,
    next_signature_offset (archive [sample_so, sample_txt]) 0 (List.replicate 256 0)
      (by decide) (by decide)⟩

/-- C9: when the first four bytes, read as a little-endian 32-bit value with
missing bytes as zero, are not `0x04034b50` (so for the empty stream and every
stream of fewer than four bytes), the first pass leaves the loop, no entry is
processed, `main` returns 0 and the final state is 256 zero bytes. -/
theorem main_no_signature (bytes : List Nat)
    (h : le_value (bytes.take 4) ≠ 0x04034b50 ∨ (bytes.length < 4 ∧ is_bytes bytes)) :
    loop_body ⟨bytes, 0⟩ (List.replicate 256 0) = Iter.brk ∧
      main_iterate 1 ⟨bytes, 0⟩ (List.replicate 256 0) = none ∧
      walk bytes = some (Walk.done (List.replicate 256 0)) ∧
      main bytes = some (0, print_checksum (List.replicate 256 0)) := by
  have hne : u32_at bytes 0 ≠ zip_magic := by
    rw [u32_at_zero]
    rcases h with h | ⟨hlen, hb⟩
    · exact h
    · intro e
      have := ((le_value_magic_iff bytes hb).1 e).length_le
      simp [signature] at this
      omega
  have hb := loop_body_stop bytes 0 (List.replicate 256 0) hne
  have hw : walk bytes = some (Walk.done (List.replicate 256 0)) := by
    show main_loop (bytes.length + 1) ⟨bytes, 0⟩ (List.replicate 256 0) = _
    simp only [main_loop, hb]
  refine ⟨hb, ?_, hw, main_of_walk_done hw⟩
  simp only [main_iterate, hb]

theorem main_no_signature_witness :
    main [0x50, 0x4b, 0x03] = some (0, print_checksum (List.replicate 256 0)) :=
  (main_no_signature [0x50, 0x4b, 0x03] (Or.inr ⟨by decide, by decide⟩)).2.2.2

/-- C10: a well-formed archive with no entry, or whose entries all have names
ending neither in `.so` nor in `classes.dex`, makes `main` return 0 with a
final state of 256 zero bytes, whatever the data of the entries. -/
theorem main_irrelevant_archive (es : List Entry) (rest : List Nat)
    (hwf : ∀ e ∈ es, e.well_formed) (hbytes : is_bytes rest) (hrest : ¬ signature <+: rest)
    (hnone : ∀ e ∈ es, ¬ e.qualifies) :
    walk (archive es ++ rest) = some (Walk.done (List.replicate 256 0)) ∧
      main (archive es ++ rest) = some (0, print_checksum (List.replicate 256 0)) := by
  have h := walk_archive es rest hwf (not_magic_of_not_signature rest hbytes hrest)
  rw [fold_entries_none _ _ hnone] at h
  exact ⟨h, main_of_walk_done h⟩

theorem main_irrelevant_archive_witness :
    (∀ e ∈ [sample_txt, sample_txt], e.well_formed) ∧
      (∀ e ∈ [sample_txt, sample_txt], ¬ e.qualifies) ∧
      main (archive [sample_txt, sample_txt] ++ []) =
        some (0, print_checksum (List.replicate 256 0)) :=
  ⟨by decide, by decide,
    (main_irrelevant_archive [sample_txt, sample_txt] [] (by decide) (by decide) (by decide)
      (by decide)).2⟩

/-! ## The remaining claims -/

theorem gKey_eq_key (i : Nat) : gKey.getD (i % 8) 0 = key.getD (i % 8) 0 := by
  have h8 : i % 8 < 8 := Nat.mod_lt _ (by norm_num)
  unfold gKey key
  interval_cases (i % 8) <;> rfl

theorem key_lt (i : Nat) : key.getD i 0 < 256 := by
  unfold key
  by_cases h : i < 8
  · interval_cases i <;> decide
  · have : 8 ≤ i := Nat.le_of_not_lt h
    simp [List.getD_eq_getElem?_getD, List.getElem?_eq_none, this]

theorem xor_byte_lt {a b : Nat} (ha : a < 256) (hb : b < 256) : a ^^^ b < 256 :=
  Nat.xor_lt_two_pow (n := 8) ha hb

/-- Within the first 256 bytes of a call every index is touched at most once. -/
theorem contribution_first_pass (data : List Nat) (n j : Nat) (hn : n ≤ 256) :
    contribution data n j = if j < n then gKey.getD (j % 8) 0 ^^^ data.getD j 0 else 0 := by
  induction n with
  | zero => simp [contribution]
  | succ n ih =>
    rw [contribution_succ, ih (by omega)]
    have hmod : n % 256 = n := Nat.mod_eq_of_lt (by omega)
    rw [hmod]
    by_cases h1 : n = j
    · subst h1
      simp
    · by_cases h2 : j < n
      · have : j < n + 1 := by omega
        simp [h1, h2, this]
      · have : ¬ j < n + 1 := by omega
        simp [h1, h2, this]

theorem list_ext_getD (a b : List Nat) (h : a.length = b.length)
    (hget : ∀ j, j < a.length → a.getD j 0 = b.getD j 0) : a = b := by
  apply List.ext_getElem h
  intro j h1 h2
  have := hget j h1
  simpa [List.getD_eq_getElem?_getD, List.getElem?_eq_getElem h1, List.getElem?_eq_getElem h2]
    using this

theorem checksum_init_length : checksum_init.length = 256 := by simp [checksum_init]

theorem checksum_init_is_bytes : is_bytes checksum_init := by
  intro x hx
  simp [checksum_init] at hx
  omega

theorem checksum_init_getD (j : Nat) : checksum_init.getD j 0 = 0 := by
  unfold checksum_init
  rw [List.getD_eq_getElem?_getD, List.getElem?_replicate]
  split <;> rfl

/-- C18: when the length of `A` is a multiple of 256, folding `A ++ B` in one
call gives the same state as folding `A` and then `B` in two calls. -/
theorem checksum_content_split (s A B : List Nat) (h : 256 ∣ A.length) :
    checksum_content s (A ++ B).length (A ++ B) =
      checksum_content (checksum_content s A.length A) B.length B := by
  rw [List.length_append]
  exact checksum_content_append_aux s A B h B.length

theorem checksum_content_split_witness :
    256 ∣ (List.replicate 256 3).length ∧
      checksum_content (List.replicate 256 7) (List.replicate 256 3 ++ [1, 2]).length
          (List.replicate 256 3 ++ [1, 2]) =
        checksum_content
          (checksum_content (List.replicate 256 7) (List.replicate 256 3).length
            (List.replicate 256 3)) [1, 2].length [1, 2] :=
  ⟨by decide, checksum_content_split (List.replicate 256 7) (List.replicate 256 3) [1, 2]
    (by decide)⟩

theorem replicate_zero_getD (n j : Nat) : (List.replicate n 0).getD j 0 = 0 := by
  rw [List.getD_eq_getElem?_getD, List.getElem?_replicate]
  split <;> rfl

theorem fold_entries_single (cs : List Nat) (e : Entry) (h : e.qualifies) :
    fold_entries cs [e] = checksum_content cs e.data.length e.data := by
  rw [fold_entries_cons, if_pos h]
  rfl

/-- C11: an archive of exactly one entry named `classes.dex` whose data `D` has
length `L <= 256` ends with the state `key[i % 8] ^ D[i]` at every `i < L` and 0
at every `L <= i < 256`. -/
theorem single_dex_entry (e : Entry) (rest : List Nat) (hwf : e.well_formed)
    (hname : e.name = [0x63, 0x6c, 0x61, 0x73, 0x73, 0x65, 0x73, 0x2e, 0x64, 0x65, 0x78])
    (hdata : is_bytes e.data) (hL : e.data.length ≤ 256)
    (hbytes : is_bytes rest) (hrest : ¬ signature <+: rest) :
    ∃ cs, walk (archive [e] ++ rest) = some (Walk.done cs) ∧
      main (archive [e] ++ rest) = some (0, print_checksum cs) ∧ cs.length = 256 ∧
      ∀ i, i < 256 →
        cs.getD i 0 =
          if i < e.data.length then
            [0x63, 0x2b, 0x72, 0x33, 0x6b, 0x37, 0x3a, 0x31].getD (i % 8) 0 ^^^ e.data.getD i 0
          else 0 := by
  have hq : e.qualifies := Or.inr (by rw [hname])
  have hw := walk_archive [e] rest (fun x hx => by simp at hx; rw [hx]; exact hwf)
    (not_magic_of_not_signature rest hbytes hrest)
  rw [fold_entries_single _ _ hq] at hw
  refine ⟨_, hw, main_of_walk_done hw, ?_, ?_⟩
  · rw [checksum_content_length, checksum_init_length]
  · intro i hi
    rw [checksum_content_getD _ checksum_init_length checksum_init_is_bytes _ _ _ hi,
      checksum_init_getD, Nat.zero_add, contribution_first_pass _ _ _ hL, gKey_eq_key]
    show _ = if i < e.data.length then key.getD (i % 8) 0 ^^^ e.data.getD i 0 else 0
    split
    · exact Nat.mod_eq_of_lt (xor_byte_lt (key_lt _) (getD_lt_of_is_bytes hdata i))
    · rfl

theorem single_dex_entry_witness :
    dex_zero8.well_formed ∧ is_bytes dex_zero8.data ∧ dex_zero8.data.length ≤ 256 ∧
      walk (archive [dex_zero8]) =
        some (Walk.done
          ([0x63, 0x2b, 0x72, 0x33, 0x6b, 0x37, 0x3a, 0x31] ++ List.replicate 248 0)) ∧
      ∃ cs, walk (archive [dex_zero8] ++ []) = some (Walk.done cs) ∧
        main (archive [dex_zero8] ++ []) = some (0, print_checksum cs) ∧ cs.length = 256 ∧
        ∀ i, i < 256 →
          cs.getD i 0 =
            if i < dex_zero8.data.length then
              [0x63, 0x2b, 0x72, 0x33, 0x6b, 0x37, 0x3a, 0x31].getD (i % 8) 0 ^^^
                dex_zero8.data.getD i 0
            else 0 :=
  ⟨by decide, by decide, by decide, by rfl,
    single_dex_entry dex_zero8 [] (by decide) (by rfl) (by decide) (by decide) (by decide)
      (by decide)⟩

theorem fold_zero_blocks : ∀ (es : List Entry) (s : List Nat), s.length = 256 → is_bytes s →
    (∀ e ∈ es, e.qualifies ∧ e.data = List.replicate 256 0) →
    (fold_entries s es).length = 256 ∧ is_bytes (fold_entries s es) ∧
      ∀ i, i < 256 →
        (fold_entries s es).getD i 0 = (s.getD i 0 + es.length * key.getD (i % 8) 0) % 256 := by
  intro es
  induction es with
  | nil =>
    intro s hlen hb _
    refine ⟨hlen, hb, fun i _ => ?_⟩
    have := getD_lt_of_is_bytes hb i
    simp only [fold_entries, List.filter_nil, List.foldl_nil, List.length_nil, Nat.zero_mul,
      Nat.add_zero]
    exact (Nat.mod_eq_of_lt this).symm
  | cons e es ih =>
    intro s hlen hb h
    obtain ⟨hq, hd⟩ := h e (by simp)
    rw [fold_entries_cons, if_pos hq]
    have hlen1 : (checksum_content s e.data.length e.data).length = 256 := by
      rw [checksum_content_length, hlen]
    have hb1 := checksum_content_is_bytes s hb e.data.length e.data
    obtain ⟨i1, i2, i3⟩ := ih _ hlen1 hb1 (fun x hx => h x (by simp [hx]))
    refine ⟨i1, i2, fun i hi => ?_⟩
    rw [i3 i hi, checksum_content_getD s hlen hb _ _ _ hi]
    have hl : e.data.length = 256 := by rw [hd]; simp
    rw [hl, contribution_first_pass _ _ _ (Nat.le_refl _), if_pos hi, hd, replicate_zero_getD,
      Nat.xor_zero, gKey_eq_key, List.length_cons, Nat.add_mul, Nat.one_mul]
    omega

/-- C12: a well-formed archive of `n` qualifying entries, each with 256 zero
bytes of data, ends with the state `(n * key[i % 8]) % 256` at every index
`i < 256`. -/
theorem zero_blocks_accumulate (es : List Entry) (rest : List Nat)
    (hwf : ∀ e ∈ es, e.well_formed)
    (hq : ∀ e ∈ es, e.qualifies ∧ e.data = List.replicate 256 0)
    (hbytes : is_bytes rest) (hrest : ¬ signature <+: rest) :
    ∃ cs, walk (archive es ++ rest) = some (Walk.done cs) ∧
      main (archive es ++ rest) = some (0, print_checksum cs) ∧ cs.length = 256 ∧
      ∀ i, i < 256 →
        cs.getD i 0 =
          (es.length * [0x63, 0x2b, 0x72, 0x33, 0x6b, 0x37, 0x3a, 0x31].getD (i % 8) 0) % 256 := by
  have hw := walk_archive es rest hwf (not_magic_of_not_signature rest hbytes hrest)
  obtain ⟨h1, _, h3⟩ := fold_zero_blocks es checksum_init checksum_init_length
    checksum_init_is_bytes hq
  refine ⟨_, hw, main_of_walk_done hw, h1, fun i hi => ?_⟩
  rw [h3 i hi, checksum_init_getD, Nat.zero_add]
  rfl

theorem zero_blocks_accumulate_witness :
    (∀ e ∈ [so_zero256, so_zero256], e.well_formed) ∧
      (∀ e ∈ [so_zero256, so_zero256], e.qualifies ∧ e.data = List.replicate 256 0) ∧
      walk (archive [so_zero256, so_zero256]) =
        some (Walk.done
          ((List.replicate 32 [0xc6, 0x56, 0xe4, 0x66, 0xd6, 0x6e, 0x74, 0x62]).flatten)) ∧
      ∃ cs, walk (archive [so_zero256, so_zero256] ++ []) = some (Walk.done cs) ∧
        main (archive [so_zero256, so_zero256] ++ []) = some (0, print_checksum cs) ∧
        cs.length = 256 ∧
        ∀ i, i < 256 →
          cs.getD i 0 =
            ([so_zero256, so_zero256].length *
              [0x63, 0x2b, 0x72, 0x33, 0x6b, 0x37, 0x3a, 0x31].getD (i % 8) 0) % 256 :=
  ⟨by decide, by decide, by rfl,
    zero_blocks_accumulate [so_zero256, so_zero256] [] (by decide) (by decide) (by decide)
      (by decide)⟩

theorem checksum_content_comm (s A B : List Nat) (nA nB : Nat) (hlen : s.length = 256)
    (hs : is_bytes s) :
    checksum_content (checksum_content s nA A) nB B =
      checksum_content (checksum_content s nB B) nA A := by
  have lA : (checksum_content s nA A).length = 256 := by rw [checksum_content_length, hlen]
  have lB : (checksum_content s nB B).length = 256 := by rw [checksum_content_length, hlen]
  have bA := checksum_content_is_bytes s hs nA A
  have bB := checksum_content_is_bytes s hs nB B
  apply list_ext_getD
  · simp only [checksum_content_length]
  · intro j hj
    rw [checksum_content_length, lA] at hj
    rw [checksum_content_getD _ lA bA _ _ _ hj, checksum_content_getD _ lB bB _ _ _ hj,
      checksum_content_getD _ hlen hs _ _ _ hj, checksum_content_getD _ hlen hs _ _ _ hj]
    omega

theorem foldl_perm {l1 l2 : List (List Nat)} (h : l1.Perm l2) :
    ∀ s : List Nat, s.length = 256 → is_bytes s →
      l1.foldl (fun s d => checksum_content s d.length d) s =
        l2.foldl (fun s d => checksum_content s d.length d) s := by
  induction h with
  | nil => intro s _ _; rfl
  | cons x _ ih =>
    intro s hlen hs
    simp only [List.foldl_cons]
    exact ih _ (by rw [checksum_content_length, hlen]) (checksum_content_is_bytes s hs _ _)
  | swap x y l =>
    intro s hlen hs
    simp only [List.foldl_cons]
    rw [checksum_content_comm s y x _ _ hlen hs]
  | trans _ _ ih1 ih2 =>
    intro s hlen hs
    rw [ih1 s hlen hs, ih2 s hlen hs]

/-- C16: on a 256-byte state, folding `A` and then `B` gives the same state as
folding `B` and then `A`; hence two well-formed archives whose qualifying
entries carry the same data in another order end with the same state. -/
theorem fold_order_independent (s A B : List Nat) (hlen : s.length = 256) (hs : is_bytes s) :
    checksum_content (checksum_content s A.length A) B.length B =
        checksum_content (checksum_content s B.length B) A.length A ∧
      ∀ (es1 es2 : List Entry) (rest1 rest2 : List Nat),
        (∀ e ∈ es1, e.well_formed) → (∀ e ∈ es2, e.well_formed) →
        is_bytes rest1 → is_bytes rest2 → ¬ signature <+: rest1 → ¬ signature <+: rest2 →
        (qualifying_data es1).Perm (qualifying_data es2) →
        ∃ cs, walk (archive es1 ++ rest1) = some (Walk.done cs) ∧
          walk (archive es2 ++ rest2) = some (Walk.done cs) ∧
          main (archive es1 ++ rest1) = some (0, print_checksum cs) ∧
          main (archive es2 ++ rest2) = some (0, print_checksum cs) := by
  refine ⟨checksum_content_comm s A B _ _ hlen hs, ?_⟩
  intro es1 es2 rest1 rest2 hwf1 hwf2 hb1 hb2 hr1 hr2 hperm
  have w1 := walk_archive es1 rest1 hwf1 (not_magic_of_not_signature rest1 hb1 hr1)
  have w2 := walk_archive es2 rest2 hwf2 (not_magic_of_not_signature rest2 hb2 hr2)
  have e : fold_entries checksum_init es1 = fold_entries checksum_init es2 := by
    rw [fold_entries_eq, fold_entries_eq]
    exact foldl_perm hperm _ checksum_init_length checksum_init_is_bytes
  rw [← e] at w2
  exact ⟨_, w1, w2, main_of_walk_done w1, main_of_walk_done w2⟩

theorem fold_order_independent_witness :
    (List.replicate 256 7).length = 256 ∧ is_bytes (List.replicate 256 7) ∧
      checksum_content (checksum_content (List.replicate 256 7) [1, 2].length [1, 2])
          [3].length [3] =
        checksum_content (checksum_content (List.replicate 256 7) [3].length [3])
          [1, 2].length [1, 2] ∧
      (qualifying_data [split_whole, swap_other]).Perm
        (qualifying_data [swap_other, sample_txt, split_whole]) ∧
      ∃ cs, walk (archive [split_whole, swap_other] ++ []) = some (Walk.done cs) ∧
        walk (archive [swap_other, sample_txt, split_whole] ++ []) = some (Walk.done cs) ∧
        main (archive [split_whole, swap_other] ++ []) = some (0, print_checksum cs) ∧
        main (archive [swap_other, sample_txt, split_whole] ++ []) =
          some (0, print_checksum cs) :=
  ⟨by decide, by decide,
    (fold_order_independent (List.replicate 256 7) [1, 2] [3] (by decide) (by decide)).1,
    by decide,
    (fold_order_independent (List.replicate 256 7) [1, 2] [3] (by decide) (by decide)).2
      [split_whole, swap_other] [swap_other, sample_txt, split_whole] [] []
      (by decide) (by decide) (by decide) (by decide) (by decide) (by decide) (by decide)⟩

theorem qualifying_data_agree : ∀ (es1 es2 : List Entry),
    List.Forall₂ (fun e1 e2 : Entry =>
      e1.name = e2.name ∧ e1.flags &&& 8 = e2.flags &&& 8 ∧ (e1.qualifies → e1.data = e2.data))
      es1 es2 →
    qualifying_data es1 = qualifying_data es2 := by
  intro es1 es2 h
  induction h with
  | nil => rfl
  | @cons a b l1 l2 hh _ ih =>
    obtain ⟨hn, _, hd⟩ := hh
    have hq : a.qualifies ↔ b.qualifies := by
      unfold Entry.qualifies
      rw [hn]
    unfold qualifying_data at ih ⊢
    by_cases ha : a.qualifies
    · have hb := hq.1 ha
      simp [List.filter_cons, ha, hb, hd ha, ih]
    · have hb : ¬ b.qualifies := fun h => ha (hq.2 h)
      simp [List.filter_cons, ha, hb, ih]

/-- C17: two well-formed archives that agree entry by entry (so with the same
number of entries) on the name, on flag bit 3 and, for qualifying entries, on
the data end with the same state, whatever their other header fields, extra
fields, non-qualifying data, descriptors and trailing bytes are. -/
theorem walk_ignores_skipped (es1 es2 : List Entry) (rest1 rest2 : List Nat)
    (hwf1 : ∀ e ∈ es1, e.well_formed) (hwf2 : ∀ e ∈ es2, e.well_formed)
    (hb1 : is_bytes rest1) (hb2 : is_bytes rest2)
    (hr1 : ¬ signature <+: rest1) (hr2 : ¬ signature <+: rest2)
    (hagree : List.Forall₂ (fun e1 e2 : Entry =>
      e1.name = e2.name ∧ e1.flags &&& 8 = e2.flags &&& 8 ∧ (e1.qualifies → e1.data = e2.data))
      es1 es2) :
    es1.length = es2.length ∧
      ∃ cs, walk (archive es1 ++ rest1) = some (Walk.done cs) ∧
        walk (archive es2 ++ rest2) = some (Walk.done cs) ∧
        main (archive es1 ++ rest1) = some (0, print_checksum cs) ∧
        main (archive es2 ++ rest2) = some (0, print_checksum cs) := by
  have w1 := walk_archive es1 rest1 hwf1 (not_magic_of_not_signature rest1 hb1 hr1)
  have w2 := walk_archive es2 rest2 hwf2 (not_magic_of_not_signature rest2 hb2 hr2)
  have e : fold_entries checksum_init es1 = fold_entries checksum_init es2 := by
    rw [fold_entries_eq, fold_entries_eq, qualifying_data_agree es1 es2 hagree]
  rw [← e] at w2
  exact ⟨hagree.length_eq, _, w1, w2, main_of_walk_done w1, main_of_walk_done w2⟩

theorem walk_ignores_skipped_witness :
    (∀ e ∈ [sample_so, sample_txt], e.well_formed) ∧
      (∀ e ∈ [other_so, other_txt], e.well_formed) ∧
      archive [sample_so, sample_txt] ≠ archive [other_so, other_txt] ∧
      ∃ cs, walk (archive [sample_so, sample_txt] ++ []) = some (Walk.done cs) ∧
        walk (archive [other_so, other_txt] ++ [0x50, 0x4b, 9]) = some (Walk.done cs) ∧
        main (archive [sample_so, sample_txt] ++ []) = some (0, print_checksum cs) ∧
        main (archive [other_so, other_txt] ++ [0x50, 0x4b, 9]) = some (0, print_checksum cs) :=
  ⟨by decide, by decide, by decide,
    (walk_ignores_skipped [sample_so, sample_txt] [other_so, other_txt] [] [0x50, 0x4b, 9]
      (by decide) (by decide) (by decide) (by decide) (by decide) (by decide)
      (List.Forall₂.cons ⟨by decide, by decide, by decide⟩
        (List.Forall₂.cons ⟨by decide, by decide, by decide⟩ List.Forall₂.nil))).2⟩

theorem is_bytes_drop {b : List Nat} (hb : is_bytes b) (p : Nat) : is_bytes (b.drop p) :=
  fun x hx => hb x (List.mem_of_mem_drop hx)

/-- A matching signature on a stream of bytes is four bytes actually present. -/
theorem magic_signature (b : List Nat) (p : Nat) (hb : is_bytes b)
    (hm : u32_at b p = zip_magic) :
    (b.drop p).take 4 = signature ∧ p + 4 ≤ b.length := by
  have hpre : signature <+: b.drop p := (le_value_magic_iff _ (is_bytes_drop hb p)).1 hm
  have hlen := hpre.length_le
  obtain ⟨t, ht⟩ := hpre
  refine ⟨?_, ?_⟩
  · rw [← ht]; rfl
  · simp only [List.length_drop, signature, List.length_cons, List.length_nil] at hlen
    omega

theorem loop_body_not_brk {b : List Nat} {p : Nat} {cs : List Nat}
    (h : loop_body ⟨b, p⟩ cs ≠ Iter.brk) : u32_at b p = zip_magic := by
  by_contra hm
  exact h (loop_body_stop b p cs hm)

/-- On a stream of bytes, a pass that reaches the end of the body moves the
stream at least four bytes forward. -/
theorem loop_body_next4 {f f' : FILE} {cs cs' : List Nat} (hb : is_bytes f.bytes)
    (h : loop_body f cs = Iter.next f' cs') :
    f.pos + 4 ≤ f.bytes.length ∧ f.pos + 4 ≤ f'.pos ∧ f'.bytes = f.bytes := by
  obtain ⟨b, p⟩ := f
  have hm : u32_at b p = zip_magic := loop_body_not_brk (by rw [h]; simp)
  have hp := (magic_signature b p hb hm).2
  by_cases hn : min (u16_at b (p + 26)) 511 ≤ b.length - (p + 30)
  · obtain ⟨r, hr, hh⟩ := loop_body_entry_spec b p cs hm hn
    have hrp : p + 4 ≤ r := by
      rcases hr with ⟨_, h2 | h2⟩ <;> omega
    rw [hh] at h
    split at h
    · split at h
      · exact absurd h (by simp)
      · injection h with h1 h2
        subst h1
        exact ⟨hp, by simp only; omega, rfl⟩
    · injection h with h1 h2
      subst h1
      exact ⟨hp, by simp only; omega, rfl⟩
  · rw [loop_body_name_short b p cs hm (Nat.lt_of_not_le hn)] at h
    exact absurd h (by simp)

theorem main_loop_fuel4 : ∀ (n : Nat) (f : FILE) (cs : List Nat), is_bytes f.bytes →
    (f.bytes.length - f.pos) / 4 < n →
      (∃ w, main_loop n f cs = some w) ∧ ∀ k, main_loop (n + k) f cs = main_loop n f cs := by
  intro n
  induction n with
  | zero => intro f cs _ h; omega
  | succ n ih =>
    intro f cs hb h
    have hk : ∀ k, n + 1 + k = (n + k) + 1 := fun k => by omega
    cases hl : loop_body f cs with
    | brk =>
      refine ⟨⟨Walk.done cs, by simp [main_loop, hl]⟩, fun k => ?_⟩
      rw [hk]; simp [main_loop, hl]
    | ret s out =>
      refine ⟨⟨Walk.failed s out, by simp [main_loop, hl]⟩, fun k => ?_⟩
      rw [hk]; simp [main_loop, hl]
    | next f' cs' =>
      obtain ⟨h1, h2, h3⟩ := loop_body_next4 hb hl
      have hm : (f'.bytes.length - f'.pos) / 4 < n := by rw [h3]; omega
      obtain ⟨hw, hind⟩ := ih f' cs' (h3 ▸ hb) hm
      refine ⟨?_, fun k => ?_⟩
      · simpa [main_loop, hl] using hw
      · rw [hk]; simp only [main_loop, hl]; exact hind k

theorem main_iterate_pos4 : ∀ (k : Nat) (f : FILE) (cs : List Nat) (f' : FILE) (cs' : List Nat),
    is_bytes f.bytes → main_iterate k f cs = some (f', cs') → f.pos + 4 * k ≤ f'.pos := by
  intro k
  induction k with
  | zero =>
    intro f cs f' cs' _ h
    simp only [main_iterate, Option.some.injEq, Prod.mk.injEq] at h
    obtain ⟨rfl, rfl⟩ := h
    omega
  | succ k ih =>
    intro f cs f' cs' hb h
    cases hl : loop_body f cs with
    | brk => simp [main_iterate, hl] at h
    | ret s out => simp [main_iterate, hl] at h
    | next f1 cs1 =>
      simp only [main_iterate, hl] at h
      obtain ⟨_, h2, h3⟩ := loop_body_next4 hb hl
      have := ih f1 cs1 f' cs' (h3 ▸ hb) h
      omega

/-- C13: the loop ends on every content, with the same result for every larger
number of allowed passes.  On a stream of bytes, every pass that does not take
the `break` finds the four signature bytes present at the cursor, a pass that
reaches the end of the body leaves the cursor strictly further on, the number
of entries visited is at most `length / 4`, and `length / 4 + 1` passes are
enough. -/
theorem walk_terminates (bytes : List Nat) :
    (∃ w, walk bytes = some w ∧
        ∀ fuel, bytes.length + 1 ≤ fuel → main_loop fuel ⟨bytes, 0⟩ checksum_init = some w) ∧
      (is_bytes bytes →
        (∀ (p : Nat) (cs : List Nat), loop_body ⟨bytes, p⟩ cs ≠ Iter.brk →
          (bytes.drop p).take 4 = [0x50, 0x4b, 0x03, 0x04] ∧ p + 4 ≤ bytes.length) ∧
        (∀ (p : Nat) (cs : List Nat) (f : FILE) (cs1 : List Nat),
          loop_body ⟨bytes, p⟩ cs = Iter.next f cs1 → p < f.pos) ∧
        (∀ (k : Nat) (f : FILE) (cs : List Nat),
          main_iterate k ⟨bytes, 0⟩ checksum_init = some (f, cs) →
          loop_body f cs ≠ Iter.brk → k + 1 ≤ bytes.length / 4) ∧
        ∃ w, walk bytes = some w ∧
          ∀ fuel, bytes.length / 4 + 1 ≤ fuel →
            main_loop fuel ⟨bytes, 0⟩ checksum_init = some w) := by
  refine ⟨?_, fun hb => ⟨?_, ?_, ?_, ?_⟩⟩
  · obtain ⟨w, hw⟩ := walk_total bytes
    refine ⟨w, hw, fun fuel hf => ?_⟩
    rw [← hw]
    exact main_loop_fuel_eq _ _ _ _ (by simp only; omega) (by simp)
  · intro p cs h
    exact magic_signature bytes p hb (loop_body_not_brk h)
  · intro p cs f cs1 h
    have := (loop_body_next h).2.1
    exact this
  · intro k f cs hreach hnb
    have hpos := main_iterate_pos4 k _ _ _ _ hb hreach
    obtain ⟨hfb, _⟩ := walk_of_iterate bytes k f cs hreach
    obtain ⟨b, p⟩ := f
    simp only at hfb hpos
    subst hfb
    have := (magic_signature b p hb (loop_body_not_brk hnb)).2
    omega
  · obtain ⟨w, hw⟩ := walk_total bytes
    refine ⟨w, hw, fun fuel hf => ?_⟩
    obtain ⟨k, rfl⟩ := Nat.exists_eq_add_of_le hf
    have h4 := main_loop_fuel4 (bytes.length / 4 + 1) ⟨bytes, 0⟩ checksum_init hb (by simp)
    have e1 := h4.2 k
    have e2 := h4.2 (bytes.length + 1 - (bytes.length / 4 + 1))
    have e3 : bytes.length / 4 + 1 + (bytes.length + 1 - (bytes.length / 4 + 1))
        = bytes.length + 1 := by omega
    rw [e3] at e2
    rw [e1, ← e2]
    exact hw

theorem walk_terminates_witness :
    is_bytes cut_in_header ∧ cut_in_header.length / 4 = 16 ∧
      ∃ w, walk cut_in_header = some w ∧
        ∀ fuel, cut_in_header.length / 4 + 1 ≤ fuel →
          main_loop fuel ⟨cut_in_header, 0⟩ checksum_init = some w :=
  ⟨by decide, by decide, ((walk_terminates cut_in_header).2 (by decide)).2.2.2⟩

/-- A pass that returns from `main` returns 1, at a header whose name block is
short (nothing is printed) or whose relevant data block is short (the message
of line 150 is printed). -/
theorem loop_body_ret {b : List Nat} {p : Nat} {cs : List Nat} {s : Nat} {out : List Char}
    (h : loop_body ⟨b, p⟩ cs = Iter.ret s out) :
    s = 1 ∧ u32_at b p = zip_magic ∧ short_read b p ∧ (out = [] ∨ out = msg_data_failed) := by
  have hm : u32_at b p = zip_magic := loop_body_not_brk (by rw [h]; simp)
  by_cases hn : min (u16_at b (p + 26)) 511 ≤ b.length - (p + 30)
  · obtain ⟨r, _, hh⟩ := loop_body_entry_spec b p cs hm hn
    rw [hh] at h
    split at h
    · rename_i hrel
      split at h
      · rename_i hd
        injection h with h1 h2
        have hends : ends_so_or_dex (c_string (name_block b p)) := by
          rw [is_relevant_terminated] at hrel
          exact of_decide_eq_true hrel
        exact ⟨h1.symm, hm, Or.inr ⟨hends, by omega⟩, Or.inr h2.symm⟩
      · exact absurd h (by simp)
    · exact absurd h (by simp)
  · have hs := Nat.lt_of_not_le hn
    rw [loop_body_name_short b p cs hm hs] at h
    injection h with h1 h2
    exact ⟨h1.symm, hm, Or.inl hs, Or.inl h2.symm⟩

/-- The array after a pass is the array before it, or that array folded once. -/
theorem loop_body_next_checksum {f f' : FILE} {cs cs' : List Nat}
    (h : loop_body f cs = Iter.next f' cs') :
    cs' = cs ∨ ∃ n d, cs' = checksum_content cs n d := by
  obtain ⟨b, p⟩ := f
  have hm : u32_at b p = zip_magic := loop_body_not_brk (by rw [h]; simp)
  by_cases hn : min (u16_at b (p + 26)) 511 ≤ b.length - (p + 30)
  · obtain ⟨r, _, hh⟩ := loop_body_entry_spec b p cs hm hn
    rw [hh] at h
    split at h
    · split at h
      · exact absurd h (by simp)
      · injection h with h1 h2
        exact Or.inr ⟨_, _, h2.symm⟩
    · injection h with h1 h2
      exact Or.inl h2.symm
  · rw [loop_body_name_short b p cs hm (Nat.lt_of_not_le hn)] at h
    exact absurd h (by simp)

theorem loop_body_next_good {f f' : FILE} {cs cs' : List Nat}
    (h : loop_body f cs = Iter.next f' cs') (hlen : cs.length = 256) (hb : is_bytes cs) :
    cs'.length = 256 ∧ is_bytes cs' := by
  rcases loop_body_next_checksum h with rfl | ⟨n, d, rfl⟩
  · exact ⟨hlen, hb⟩
  · exact ⟨by rw [checksum_content_length, hlen], checksum_content_is_bytes cs hb n d⟩

/-- From any state the loop reaches, it ends by `break` with a 256-byte array,
or by `return 1` at a reached header with a short block. -/
theorem main_loop_status (bytes : List Nat) : ∀ (n k : Nat) (f : FILE) (cs : List Nat),
    main_iterate k ⟨bytes, 0⟩ checksum_init = some (f, cs) →
    cs.length = 256 → is_bytes cs → f.bytes.length - f.pos < n →
    (∃ cs', cs'.length = 256 ∧ is_bytes cs' ∧ main_loop n f cs = some (Walk.done cs')) ∨
      (∃ (k' : Nat) (f' : FILE) (cs' : List Nat) (out : List Char),
        main_iterate k' ⟨bytes, 0⟩ checksum_init = some (f', cs') ∧
          u32_at bytes f'.pos = zip_magic ∧ short_read bytes f'.pos ∧
          (out = [] ∨ out = msg_data_failed) ∧
          main_loop n f cs = some (Walk.failed 1 out)) := by
  intro n
  induction n with
  | zero => intro k f cs _ _ _ h; omega
  | succ n ih =>
    intro k f cs hreach hlen hb hn
    obtain ⟨hfb, _⟩ := walk_of_iterate bytes k f cs hreach
    cases hl : loop_body f cs with
    | brk => exact Or.inl ⟨cs, hlen, hb, by simp only [main_loop, hl]⟩
    | ret s out =>
      obtain ⟨b, p⟩ := f
      simp only at hfb
      subst hfb
      obtain ⟨hs, hm, hshort, hout⟩ := loop_body_ret hl
      subst hs
      exact Or.inr ⟨k, ⟨b, p⟩, cs, out, hreach, hm, hshort, hout,
        by simp only [main_loop, hl]⟩
    | next f1 cs1 =>
      obtain ⟨h1, h2, h3⟩ := loop_body_next hl
      obtain ⟨g1, g2⟩ := loop_body_next_good hl hlen hb
      have hreach1 := main_iterate_succ k _ _ _ _ _ _ hreach hl
      have hm : f1.bytes.length - f1.pos < n := by rw [h3]; omega
      have e : main_loop (n + 1) f cs = main_loop n f1 cs1 := by simp only [main_loop, hl]
      rw [e]
      exact ih (k + 1) f1 cs1 hreach1 g1 g2 hm

theorem printf_02x_byte : ∀ a, a < 256 → printf_02x a = hex_group a ++ [' '] := by
  decide

theorem foldl_append_flatten (g : Nat → List Char) : ∀ (l : List Nat) (acc : List Char),
    l.foldl (fun out i => out ++ g i) acc = acc ++ (l.map g).flatten := by
  intro l
  induction l with
  | nil => intro acc; simp
  | cons a l ih => intro acc; simp [ih, List.append_assoc]

theorem flatten_range_rows (g : Nat → List Char) (n : Nat) : ∀ m : Nat,
    ((List.range (n * m)).map g).flatten =
      ((List.range m).map (fun r => ((List.range n).map (fun c => g (n * r + c))).flatten)).flatten := by
  intro m
  induction m with
  | zero => simp
  | succ m ih =>
    rw [Nat.mul_succ, List.range_add, List.map_append, List.flatten_append, ih, List.range_succ,
      List.map_append, List.flatten_append, List.map_map]
    simp [Function.comp_def]

theorem print_checksum_followed (cs : List Nat) (hb : is_bytes cs) :
    print_checksum cs = layout_followed cs := by
  have key : ∀ i, printf_02x (cs.getD i 0) = hex_group (cs.getD i 0) ++ [' '] :=
    fun i => printf_02x_byte _ (getD_lt_of_is_bytes hb i)
  unfold print_checksum layout_followed
  simp only [key, List.append_assoc]
  rw [foldl_append_flatten
    (fun i => hex_group (cs.getD i 0) ++ ([' '] ++ if i % 16 = 15 then ['\n'] else []))]
  have h256 : (256 : Nat) = 16 * 16 := rfl
  rw [List.nil_append, h256, flatten_range_rows]
  rfl

/-- C14 fails on the all-zero state: the text printed is not the layout in
which the groups of a line are separated by single spaces, because `printf`
writes a space after every group, also after the 16th of a line. -/
theorem separated_layout_counterexample :
    print_checksum (List.replicate 256 0) ≠ layout_separated (List.replicate 256 0) ∧
      (print_checksum (List.replicate 256 0)).take 49 =
        "00 00 00 00 00 00 00 00 00 00 00 00 00 00 00 00 \n".toList ∧
      (layout_separated (List.replicate 256 0)).take 48 =
        "00 00 00 00 00 00 00 00 00 00 00 00 00 00 00 00\n".toList := by
  refine ⟨fun h => absurd (congrArg List.length h) (by decide), by rfl, by rfl⟩

/-- C14, amended: for a state of bytes (the 256 bytes of the array in a run)
the text printed on success is 16 lines and one empty line; line `r` holds the 16 bytes `state[16r .. 16r+15]`,
each written as two lowercase hexadecimal digits followed by a single space
(so every line ends with a space), then a newline; one more newline follows
the last line. -/
theorem print_checksum_layout (cs : List Nat) (hb : is_bytes cs) :
    print_checksum cs =
        ((List.range 16).map (fun r =>
          ((List.range 16).map (fun c =>
            [hex_digit (cs.getD (16 * r + c) 0 / 16), hex_digit (cs.getD (16 * r + c) 0 % 16),
              ' '])).flatten ++ ['\n'])).flatten ++ ['\n'] ∧
      (List.range 16).map hex_digit = "0123456789abcdef".toList ∧
      (print_checksum cs).length = 16 * (16 * 3 + 1) + 1 := by
  have h := print_checksum_followed cs hb
  refine ⟨h, by decide, ?_⟩
  rw [h]
  rfl

theorem print_checksum_layout_witness :
    is_bytes (List.range 256) ∧
      (print_checksum (List.range 256)).take 49 =
        "00 01 02 03 04 05 06 07 08 09 0a 0b 0c 0d 0e 0f \n".toList ∧
      print_checksum (List.range 256) =
        ((List.range 16).map (fun r =>
          ((List.range 16).map (fun c =>
            [hex_digit ((List.range 256).getD (16 * r + c) 0 / 16),
              hex_digit ((List.range 256).getD (16 * r + c) 0 % 16), ' '])).flatten ++
            ['\n'])).flatten ++ ['\n'] :=
  ⟨by decide, by rfl, (print_checksum_layout (List.range 256) (by decide)).1⟩

/-- C15 fails for the name block: on a content cut off inside the name of its
first entry `main` returns 1 and prints nothing, because line 136 prints through
`DPRINTF`, which is `nopFunction` in the default build; on a content cut off
inside the data of a relevant entry it returns 1 after the message of line 150,
which is printed with `printf`. -/
theorem name_failure_prints_nothing :
    main cut_in_name = some (1, []) ∧
      main cut_in_data =
        some (1, "Failed to read block of file data from zip structure.\n".toList) := by
  exact ⟨by rfl, by rfl⟩

/-- C19 fails for a name with a zero byte after the suffix: the only entry has
the six name bytes `a.so\0b`, which end neither in `.so` nor in `classes.dex`,
and only three of its eight data bytes are present.  The test of line 146 sees
the C string `a.so`, the data read is short and `main` returns 1, although no
header the loop reaches has a short name block or is a qualifying entry with a
short data block. -/
theorem nul_name_failure_counterexample :
    main cut_nul_after_suffix =
        some (1, "Failed to read block of file data from zip structure.\n".toList) ∧
      name_block cut_nul_after_suffix 0 = [0x61, 0x2e, 0x73, 0x6f, 0, 0x62] ∧
      ∀ (k : Nat) (f : FILE) (cs : List Nat),
        main_iterate k ⟨cut_nul_after_suffix, 0⟩ (List.replicate 256 0) = some (f, cs) →
          ¬ short_read_as_specified cut_nul_after_suffix f.pos := by
  refine ⟨by rfl, by decide, ?_⟩
  intro k f cs h
  have hb : loop_body ⟨cut_nul_after_suffix, 0⟩ (List.replicate 256 0) =
      Iter.ret 1 msg_data_failed := by rfl
  cases k with
  | zero =>
    simp only [main_iterate, Option.some.injEq, Prod.mk.injEq] at h
    rw [← h.1]
    decide
  | succ k =>
    simp only [main_iterate, hb] at h
    exact Option.noConfusion h

/-- C19, amended: `main` always returns.  Either it returns 0 and prints the
256 bytes of the final array, as 16 lines of 16 groups of two lowercase
hexadecimal digits and a space, each line ended by a newline, and one more
newline (785 characters); or it returns 1, having printed nothing or the
message of line 150 and no checksum, and the loop has reached a header whose
name block is short or whose name, taken up to its first zero byte, ends in
`.so` or `classes.dex` and whose data block is short.  A content whose last
header is cut off after the signature and a content whose skipped entry
declares more data than the file holds are of the first kind. -/
theorem main_status (bytes : List Nat) :
    ((∃ cs, cs.length = 256 ∧ is_bytes cs ∧ walk bytes = some (Walk.done cs) ∧
          main bytes = some (0, print_checksum cs) ∧
          print_checksum cs =
            ((List.range 16).map (fun r =>
              ((List.range 16).map (fun c =>
                [hex_digit (cs.getD (16 * r + c) 0 / 16),
                  hex_digit (cs.getD (16 * r + c) 0 % 16), ' '])).flatten ++
                ['\n'])).flatten ++ ['\n'] ∧
          (print_checksum cs).length = 785) ∨
        (∃ (k : Nat) (f : FILE) (cs : List Nat) (out : List Char),
          main_iterate k ⟨bytes, 0⟩ (List.replicate 256 0) = some (f, cs) ∧
            u32_at bytes f.pos = 0x04034b50 ∧
            (bytes.length - (f.pos + 30) < min (u16_at bytes (f.pos + 26)) 511 ∨
              (ends_so_or_dex
                  (((bytes.drop (f.pos + 30)).take
                    (min (u16_at bytes (f.pos + 26)) 511)).takeWhile (fun c => c != 0)) ∧
                bytes.length -
                    (f.pos + 30 + min (u16_at bytes (f.pos + 26)) 511 +
                      u16_at bytes (f.pos + 28)) <
                  u32_at bytes (f.pos + 18))) ∧
            (out = [] ∨ out = "Failed to read block of file data from zip structure.\n".toList) ∧
            main bytes = some (1, out))) ∧
      main cut_after_signature =
        some (0, print_checksum (checksum_content (List.replicate 256 0) 8 sample_so.data)) ∧
      main oversized_skip = some (0, print_checksum (List.replicate 256 0)) := by
  refine ⟨?_, by rfl, by rfl⟩
  rcases main_loop_status bytes (bytes.length + 1) 0 ⟨bytes, 0⟩ checksum_init rfl
    checksum_init_length checksum_init_is_bytes (by simp) with
    ⟨cs, h1, h2, h3⟩ | ⟨k, f, cs, out, h1, h2, h3, h4, h5⟩
  · have hp := print_checksum_followed cs h2
    refine Or.inl ⟨cs, h1, h2, h3, main_of_walk_done h3, hp, ?_⟩
    rw [hp]
    rfl
  · exact Or.inr ⟨k, f, cs, out, h1, h2, h3, h4, main_of_walk_failed h5⟩

end SmashHit
